import Mathlib

/-!
Verification of the HRTool schema-reconciliation and identity-resolution
engine (`src/HRTool.py`) against its natural-language specification.

The Python source works over pandas DataFrames whose cells are untyped
(strings, numbers, timestamps or NaN).  We shallowly embed a cell as the
inductive type `CellValue` and a pooled record as a list of named cells
plus a source priority.  Stateful dictionary-building loops become
explicit folds over association lists; `datetime.now()` becomes an
explicit `today` parameter.  All definitions are executable.
-/

namespace HRTool

/-- A spreadsheet cell as seen by the tool: missing (pandas `NaN`),
a string, an integer (numeric cells are consumed through `int(value)`),
or an already-structured date (`pd.Timestamp` / `datetime`). -/
inductive CellValue where
  | na
  | vstr (s : String)
  | vnum (n : Int)
  | vdate (y : Int) (m : Nat) (d : Nat)
deriving DecidableEq

/-- Zero-pad a number to two digits, as `strftime` `%m` / `%d` do. -/
def pad2 (n : Nat) : String :=
  if n < 10 then "0" ++ toString n else toString n

/-- `strftime('%Y/%m/%d')` on a (year, month, day) triple. -/
def formatYMD (y : Int) (m : Nat) (d : Nat) : String :=
  toString y ++ "/" ++ pad2 m ++ "/" ++ pad2 d

/-- Python `str(value)` on a cell: `str(nan) = "nan"`, strings unchanged,
integers in decimal, timestamps in their default `YYYY-MM-DD HH:MM:SS`
rendering. -/
def cellToStr : CellValue → String
  | .na => "nan"
  | .vstr s => s
  | .vnum n => toString n
  | .vdate y m d => toString y ++ "-" ++ pad2 m ++ "-" ++ pad2 d ++ " 00:00:00"

/-- `leadsWith pat l` holds when the character list `pat` is an initial
segment of `l`. -/
def leadsWith : List Char → List Char → Bool
  | [], _ => true
  | _ :: _, [] => false
  | a :: as, b :: bs => a == b && leadsWith as bs

/-- `containsSub pat l` holds when `pat` occurs contiguously inside `l`. -/
def containsSub (pat : List Char) : List Char → Bool
  | [] => leadsWith pat []
  | c :: rest => leadsWith pat (c :: rest) || containsSub pat rest

/-- Python substring test `pat in s`. -/
def strContains (s pat : String) : Bool :=
  containsSub pat.data s.data

/-- Python `str.upper()` restricted to ASCII letters (the only cased
characters appearing in the tool's keyword tables). -/
def strUpper (s : String) : String :=
  ⟨s.data.map Char.toUpper⟩

/-- Python `str.lower()` restricted to ASCII letters. -/
def strLower (s : String) : String :=
  ⟨s.data.map Char.toLower⟩

/-- ASCII whitespace, as recognised by Python `str.strip()` /
`int()` on the inputs this tool sees. -/
def isPyWs (c : Char) : Bool :=
  c == ' ' || c == '\t' || c == '\n' || c == '\r' || c == '\x0b' || c == '\x0c'

/-- Drop leading and trailing whitespace from a character list. -/
def trimChars (l : List Char) : List Char :=
  ((l.dropWhile isPyWs).reverse.dropWhile isPyWs).reverse

/-- Python `str.strip()`. -/
def strTrim (s : String) : String :=
  ⟨trimChars s.data⟩

/-- `normalize_gender` (`src/HRTool.py:289-309`): NaN becomes `""`;
otherwise the trimmed upper-cased string is matched for substring
containment against the male token list first, then the female one;
an unmatched value passes through trimmed. -/
def normalize_gender (v : CellValue) : String :=
  match v with
  | .na => ""
  | _ =>
    let genderStr := strUpper (strTrim (cellToStr v))
    let malePatterns := ["男", "男性", "M", "MALE", "オトコ", "ダンセイ"]
    let femalePatterns := ["女", "女性", "F", "FEMALE", "オンナ", "ジョセイ"]
    if malePatterns.any (fun p => strContains genderStr p) then "男性"
    else if femalePatterns.any (fun p => strContains genderStr p) then "女性"
    else strTrim (cellToStr v)

/-- C10: any string whose trimmed, upper-cased form contains `"M"` is sent
to the male label, so the female-intended inputs `FEMALE` / `female`
normalize to `男性`. -/
theorem c10_gender_male_list_shadows_female :
    (∀ s : String, strContains (strUpper (strTrim s)) "M" = true →
      normalize_gender (.vstr s) = "男性")
    ∧ normalize_gender (.vstr "FEMALE") = "男性"
    ∧ normalize_gender (.vstr "female") = "男性" := by
  refine ⟨?_, by decide, by decide⟩
  intro s h
  simp only [normalize_gender, cellToStr]
  rw [if_pos]
  simp only [List.any_eq_true]
  exact ⟨"M", by simp, h⟩

/-- Witness for C10 at the concrete input `"FEMALE"`. -/
theorem c10_gender_male_list_shadows_female_witness :
    normalize_gender (.vstr "FEMALE") = "男性" :=
  c10_gender_male_list_shadows_female.1 "FEMALE" (by decide)

/-! ## Calendar dates

`convert_excel_date` relies on `datetime(1899, 12, 30) + timedelta(days=n)`.
We model a `datetime` date as a (year, month, day) triple and day addition
as iteration of the day-successor function, which is the semantics of
`timedelta` day arithmetic on the proleptic Gregorian calendar. -/

/-- A proleptic Gregorian calendar date. -/
structure Date where
  y : Int
  m : Nat
  d : Nat
deriving DecidableEq

/-- Gregorian leap-year rule. -/
def isLeap (y : Int) : Bool :=
  (y % 4 == 0 && y % 100 != 0) || (y % 400 == 0)

/-- Length of month `m` of year `y` (the catch-all branch is never
reached on valid dates). -/
def daysInMonth (y : Int) (m : Nat) : Nat :=
  match m with
  | 1 => 31 | 2 => if isLeap y then 29 else 28 | 3 => 31 | 4 => 30
  | 5 => 31 | 6 => 30 | 7 => 31 | 8 => 31 | 9 => 30 | 10 => 31
  | 11 => 30 | 12 => 31 | _ => 31

/-- The calendar day after `dt`. -/
def nextDay (dt : Date) : Date :=
  if dt.d < daysInMonth dt.y dt.m then ⟨dt.y, dt.m, dt.d + 1⟩
  else if dt.m < 12 then ⟨dt.y, dt.m + 1, 1⟩
  else ⟨dt.y + 1, 1, 1⟩

/-- The calendar day before `dt`. -/
def prevDay (dt : Date) : Date :=
  if 1 < dt.d then ⟨dt.y, dt.m, dt.d - 1⟩
  else if 1 < dt.m then ⟨dt.y, dt.m - 1, daysInMonth dt.y (dt.m - 1)⟩
  else ⟨dt.y - 1, 12, 31⟩

/-- The calendar date `n` days after `dt`. -/
def addDays (dt : Date) (n : Nat) : Date :=
  nextDay^[n] dt

/-- The calendar date `n` days before `dt`. -/
def subDays (dt : Date) (n : Nat) : Date :=
  prevDay^[n] dt

/-- `datetime + timedelta(days=n)` for a signed day count. -/
def addDaysInt (dt : Date) (n : Int) : Date :=
  if 0 ≤ n then addDays dt n.toNat else subDays dt (-n).toNat

/-- The Excel date-serial epoch `datetime(1899, 12, 30)`. -/
def excelEpoch : Date := ⟨1899, 12, 30⟩

/-- `convert_excel_date` (`src/HRTool.py:230-250`): NaN and `""` become
`""`; an already-structured date is formatted with
`strftime('%Y/%m/%d')`; an integer is interpreted as a day offset from
the 1899-12-30 epoch unless the resulting date leaves the `datetime`
range (year 1..9999), in which case `str(value)` is returned; any other
string is returned by `str(value)` unchanged. -/
def convert_excel_date : CellValue → String
  | .na => ""
  | .vstr s => if s = "" then "" else s
  | .vdate y m d => formatYMD y m d
  | .vnum n =>
    let dt := addDaysInt excelEpoch n
    if 1 ≤ dt.y ∧ dt.y ≤ 9999 then formatYMD dt.y dt.m dt.d
    else toString n

/-! Stepping lemmas used to evaluate `addDays` without unfolding tens of
thousands of `nextDay` applications in the kernel. -/

theorem nextDay_le_y (dt : Date) : dt.y ≤ (nextDay dt).y := by
  unfold nextDay
  split
  · exact le_refl _
  · split
    · exact le_refl _
    · simp only
      omega

theorem prevDay_y_le (dt : Date) : (prevDay dt).y ≤ dt.y := by
  unfold prevDay
  split
  · exact le_refl _
  · split
    · exact le_refl _
    · simp only
      omega

theorem addDays_y_lb (dt : Date) (n : Nat) : dt.y ≤ (addDays dt n).y := by
  induction n with
  | zero => exact le_refl _
  | succ k ih =>
    unfold addDays at ih ⊢
    rw [Function.iterate_succ_apply']
    exact le_trans ih (nextDay_le_y _)

theorem subDays_y_ub (dt : Date) (n : Nat) : (subDays dt n).y ≤ dt.y := by
  induction n with
  | zero => exact le_refl _
  | succ k ih =>
    unfold subDays at ih ⊢
    rw [Function.iterate_succ_apply']
    exact le_trans (prevDay_y_le _) ih

/-- Advancing `k` days within one month. -/
theorem nextDay_iterate_within (y : Int) (m : Nat) :
    ∀ (k d : Nat), 1 ≤ d → d + k ≤ daysInMonth y m →
      nextDay^[k] ⟨y, m, d⟩ = ⟨y, m, d + k⟩ := by
  intro k
  induction k with
  | zero => intro d _ _; simp
  | succ j ih =>
    intro d h1 h2
    rw [Function.iterate_succ_apply]
    have hstep : nextDay ⟨y, m, d⟩ = ⟨y, m, d + 1⟩ := by
      simp only [nextDay]
      rw [if_pos (show d < daysInMonth y m by omega)]
    rw [hstep, ih (d + 1) (by omega) (by omega)]
    congr 1
    omega

/-- Every month has at least one day. -/
theorem daysInMonth_pos (y : Int) (m : Nat) : 1 ≤ daysInMonth y m := by
  unfold daysInMonth
  split <;> (try split) <;> omega

/-- Advancing a whole month from its first day. -/
theorem nextDay_iterate_month (y : Int) (m : Nat) (h1 : 1 ≤ m) (h2 : m ≤ 12) :
    nextDay^[daysInMonth y m] ⟨y, m, 1⟩ =
      if m < 12 then ⟨y, m + 1, 1⟩ else ⟨y + 1, 1, 1⟩ := by
  have hlen := daysInMonth_pos y m
  have hdecomp : daysInMonth y m = 1 + (daysInMonth y m - 1) := by omega
  rw [hdecomp, Function.iterate_add_apply,
    nextDay_iterate_within y m (daysInMonth y m - 1) 1 (le_refl 1) (by omega),
    Function.iterate_one]
  have h1d : 1 + (daysInMonth y m - 1) = daysInMonth y m := by omega
  rw [h1d]
  simp only [nextDay]
  rw [if_neg (by omega)]

/-- The number of days in year `y`. -/
def yearDays (y : Int) : Nat :=
  if isLeap y then 366 else 365

/-- Advancing a whole calendar year from January 1st. -/
theorem nextDay_iterate_year (y : Int) :
    nextDay^[yearDays y] ⟨y, 1, 1⟩ = ⟨y + 1, 1, 1⟩ := by
  have m1 : nextDay^[daysInMonth y 1] (⟨y, 1, 1⟩ : Date) = ⟨y, 2, 1⟩ := by
    have h := nextDay_iterate_month y 1 (by omega) (by omega)
    rwa [if_pos (show (1 : Nat) < 12 by omega)] at h
  have m2 : nextDay^[daysInMonth y 2] (⟨y, 2, 1⟩ : Date) = ⟨y, 3, 1⟩ := by
    have h := nextDay_iterate_month y 2 (by omega) (by omega)
    rwa [if_pos (show (2 : Nat) < 12 by omega)] at h
  have m3 : nextDay^[daysInMonth y 3] (⟨y, 3, 1⟩ : Date) = ⟨y, 4, 1⟩ := by
    have h := nextDay_iterate_month y 3 (by omega) (by omega)
    rwa [if_pos (show (3 : Nat) < 12 by omega)] at h
  have m4 : nextDay^[daysInMonth y 4] (⟨y, 4, 1⟩ : Date) = ⟨y, 5, 1⟩ := by
    have h := nextDay_iterate_month y 4 (by omega) (by omega)
    rwa [if_pos (show (4 : Nat) < 12 by omega)] at h
  have m5 : nextDay^[daysInMonth y 5] (⟨y, 5, 1⟩ : Date) = ⟨y, 6, 1⟩ := by
    have h := nextDay_iterate_month y 5 (by omega) (by omega)
    rwa [if_pos (show (5 : Nat) < 12 by omega)] at h
  have m6 : nextDay^[daysInMonth y 6] (⟨y, 6, 1⟩ : Date) = ⟨y, 7, 1⟩ := by
    have h := nextDay_iterate_month y 6 (by omega) (by omega)
    rwa [if_pos (show (6 : Nat) < 12 by omega)] at h
  have m7 : nextDay^[daysInMonth y 7] (⟨y, 7, 1⟩ : Date) = ⟨y, 8, 1⟩ := by
    have h := nextDay_iterate_month y 7 (by omega) (by omega)
    rwa [if_pos (show (7 : Nat) < 12 by omega)] at h
  have m8 : nextDay^[daysInMonth y 8] (⟨y, 8, 1⟩ : Date) = ⟨y, 9, 1⟩ := by
    have h := nextDay_iterate_month y 8 (by omega) (by omega)
    rwa [if_pos (show (8 : Nat) < 12 by omega)] at h
  have m9 : nextDay^[daysInMonth y 9] (⟨y, 9, 1⟩ : Date) = ⟨y, 10, 1⟩ := by
    have h := nextDay_iterate_month y 9 (by omega) (by omega)
    rwa [if_pos (show (9 : Nat) < 12 by omega)] at h
  have m10 : nextDay^[daysInMonth y 10] (⟨y, 10, 1⟩ : Date) = ⟨y, 11, 1⟩ := by
    have h := nextDay_iterate_month y 10 (by omega) (by omega)
    rwa [if_pos (show (10 : Nat) < 12 by omega)] at h
  have m11 : nextDay^[daysInMonth y 11] (⟨y, 11, 1⟩ : Date) = ⟨y, 12, 1⟩ := by
    have h := nextDay_iterate_month y 11 (by omega) (by omega)
    rwa [if_pos (show (11 : Nat) < 12 by omega)] at h
  have m12 : nextDay^[daysInMonth y 12] (⟨y, 12, 1⟩ : Date) = ⟨y + 1, 1, 1⟩ := by
    have h := nextDay_iterate_month y 12 (by omega) (by omega)
    rwa [if_neg (show ¬ (12 : Nat) < 12 by omega)] at h
  have hy : yearDays y =
      daysInMonth y 12 + (daysInMonth y 11 + (daysInMonth y 10 +
        (daysInMonth y 9 + (daysInMonth y 8 + (daysInMonth y 7 +
          (daysInMonth y 6 + (daysInMonth y 5 + (daysInMonth y 4 +
            (daysInMonth y 3 + (daysInMonth y 2 + daysInMonth y 1)))))))))) := by
    have hfeb : daysInMonth y 2 = if isLeap y then 29 else 28 := rfl
    have e1 : daysInMonth y 1 = 31 := rfl
    have e3 : daysInMonth y 3 = 31 := rfl
    have e4 : daysInMonth y 4 = 30 := rfl
    have e5 : daysInMonth y 5 = 31 := rfl
    have e6 : daysInMonth y 6 = 30 := rfl
    have e7 : daysInMonth y 7 = 31 := rfl
    have e8 : daysInMonth y 8 = 31 := rfl
    have e9 : daysInMonth y 9 = 30 := rfl
    have e10 : daysInMonth y 10 = 31 := rfl
    have e11 : daysInMonth y 11 = 30 := rfl
    have e12 : daysInMonth y 12 = 31 := rfl
    unfold yearDays
    rw [hfeb, e1, e3, e4, e5, e6, e7, e8, e9, e10, e11, e12]
    split <;> omega
  rw [hy, Function.iterate_add_apply, Function.iterate_add_apply,
    Function.iterate_add_apply, Function.iterate_add_apply,
    Function.iterate_add_apply, Function.iterate_add_apply,
    Function.iterate_add_apply, Function.iterate_add_apply,
    Function.iterate_add_apply, Function.iterate_add_apply,
    Function.iterate_add_apply, m1, m2, m3, m4, m5, m6, m7, m8, m9, m10,
    m11, m12]

/-- Total days of the `k` consecutive years starting at year `y`. -/
def yearSpanDays (y : Int) : Nat → Nat
  | 0 => 0
  | k + 1 => yearSpanDays (y + 1) k + yearDays y

/-- Advancing `k` whole years from January 1st. -/
theorem nextDay_iterate_years :
    ∀ (k : Nat) (y : Int), nextDay^[yearSpanDays y k] ⟨y, 1, 1⟩ = ⟨y + k, 1, 1⟩ := by
  intro k
  induction k with
  | zero => intro y; simp [yearSpanDays]
  | succ j ih =>
    intro y
    show nextDay^[yearSpanDays (y + 1) j + yearDays y] ⟨y, 1, 1⟩ = _
    rw [Function.iterate_add_apply, nextDay_iterate_year, ih]
    congr 1
    omega

set_option maxRecDepth 20000 in
/-- The serial 45000, evaluated by composing the stepping lemmas. -/
theorem addDays_epoch_45000 : addDays excelEpoch 45000 = ⟨2023, 3, 15⟩ := by
  have h2 : nextDay^[2] excelEpoch = ⟨1900, 1, 1⟩ := by decide
  have hyrs : nextDay^[44925] (⟨1900, 1, 1⟩ : Date) = ⟨2023, 1, 1⟩ := by
    have h := nextDay_iterate_years 123 1900
    rw [show yearSpanDays 1900 123 = 44925 from by decide] at h
    rw [show ((1900 : Int) + (123 : Nat) : Int) = 2023 from by norm_num] at h
    exact h
  have htail : nextDay^[73] (⟨2023, 1, 1⟩ : Date) = ⟨2023, 3, 15⟩ := by decide
  show nextDay^[45000] excelEpoch = _
  rw [show (45000 : Nat) = 73 + (44925 + 2) from by omega,
    Function.iterate_add_apply, Function.iterate_add_apply, h2, hyrs, htail]

/-- C7: numeric date serials are converted using the 1899-12-30 epoch
convention (`epoch + n` days, with the day-successor iteration as the
meaning of day addition), with 45000 mapping to `"2023/03/15"`; strings
pass through unchanged and structured dates are formatted directly. -/
theorem c7_convert_excel_date_epoch :
    (∀ n : Nat, (addDays excelEpoch n).y ≤ 9999 →
      convert_excel_date (.vnum (n : Int)) =
        formatYMD (addDays excelEpoch n).y (addDays excelEpoch n).m
          (addDays excelEpoch n).d)
    ∧ (∀ n : Nat, 1 ≤ (subDays excelEpoch n).y →
      convert_excel_date (.vnum (-(n : Int))) =
        formatYMD (subDays excelEpoch n).y (subDays excelEpoch n).m
          (subDays excelEpoch n).d)
    ∧ addDays excelEpoch 45000 = ⟨2023, 3, 15⟩
    ∧ convert_excel_date (.vnum 45000) = "2023/03/15"
    ∧ (∀ s : String, convert_excel_date (.vstr s) = s)
    ∧ (∀ y m d, convert_excel_date (.vdate y m d) = formatYMD y m d) := by
  have hpos : ∀ n : Nat, (addDays excelEpoch n).y ≤ 9999 →
      convert_excel_date (.vnum (n : Int)) =
        formatYMD (addDays excelEpoch n).y (addDays excelEpoch n).m
          (addDays excelEpoch n).d := by
    intro n hy
    have hlb : (1 : Int) ≤ (addDays excelEpoch n).y :=
      le_trans (by norm_num [excelEpoch]) (addDays_y_lb excelEpoch n)
    simp only [convert_excel_date, addDaysInt, Int.toNat_ofNat,
      if_pos (Int.ofNat_nonneg n)]
    rw [if_pos ⟨hlb, hy⟩]
  refine ⟨hpos, ?_, addDays_epoch_45000, ?_, ?_, ?_⟩
  · intro n hy
    rcases Nat.eq_zero_or_pos n with h0 | hn
    · subst h0
      have := hpos 0 (by norm_num [addDays, excelEpoch])
      simpa [subDays, addDays] using this
    · have hub : (subDays excelEpoch n).y ≤ 9999 :=
        le_trans (subDays_y_ub excelEpoch n) (by norm_num [excelEpoch])
      have hneg : ¬ (0 : Int) ≤ -(n : Int) := by
        simp
        omega
      simp only [convert_excel_date, addDaysInt, if_neg hneg, neg_neg,
        Int.toNat_ofNat]
      rw [if_pos ⟨hy, hub⟩]
  · have h := hpos 45000 (by rw [addDays_epoch_45000]; decide)
    rw [addDays_epoch_45000] at h
    simpa [formatYMD, pad2] using h
  · intro s
    by_cases h : s = "" <;> simp [convert_excel_date, h]
  · intro y m d
    simp [convert_excel_date]

/-- Witness for C7: the positive-serial clause applied at 45000 and the
string clause at a parseable date string. -/
theorem c7_convert_excel_date_epoch_witness :
    convert_excel_date (.vnum (45000 : Nat)) =
      formatYMD (addDays excelEpoch 45000).y (addDays excelEpoch 45000).m
        (addDays excelEpoch 45000).d
    ∧ convert_excel_date (.vstr "2020/01/01") = "2020/01/01" :=
  ⟨c7_convert_excel_date_epoch.1 45000
      (by rw [addDays_epoch_45000]; decide),
    c7_convert_excel_date_epoch.2.2.2.2.1 "2020/01/01"⟩

/-! ## Insertion-ordered counters

The Python source accumulates occurrence counts in `defaultdict(int)`
dictionaries and then takes `max(..., key=lambda x: x[1])`.  A Python
dict preserves insertion order and `max` returns the first item
attaining the maximum, so ties go to the first-seen key.  We model such
a dictionary as an association list to which fresh keys are appended. -/

/-- First-match association-list lookup. -/
def alookup {β : Type} (k : String) : List (String × β) → Option β
  | [] => none
  | (k', v) :: rest => if k' = k then some v else alookup k rest

/-- `counter[k] += 1` on an insertion-ordered counter: an existing key is
bumped in place, a fresh key is appended with count 1. -/
def bumpCount : List (String × Nat) → String → List (String × Nat)
  | [], k => [(k, 1)]
  | (k', c) :: rest, k =>
    if k' = k then (k', c + 1) :: rest else (k', c) :: bumpCount rest k

/-- The counter obtained by counting every element of `ks` in order. -/
def countsOf (ks : List String) : List (String × Nat) :=
  ks.foldl bumpCount []

/-- One step of Python `max` with `key=lambda x: x[1]`: a later item
replaces the current best only when its count is strictly greater. -/
def pickStep (b q : String × Nat) : String × Nat :=
  if q.2 > b.2 then q else b

/-- Python `max(items, key=lambda x: x[1])` over an insertion-ordered
counter (`none` on the empty counter). -/
def pickMax (l : List (String × Nat)) : Option (String × Nat) :=
  match l with
  | [] => none
  | p :: rest => some (rest.foldl pickStep p)

theorem pickMax_fold :
    ∀ (rest : List (String × Nat)) (b : String × Nat),
      ∃ l1 l2, b :: rest = l1 ++ (rest.foldl pickStep b) :: l2 ∧
        (∀ q ∈ l1, q.2 < (rest.foldl pickStep b).2) ∧
        (∀ q ∈ b :: rest, q.2 ≤ (rest.foldl pickStep b).2) := by
  intro rest
  induction rest with
  | nil =>
    intro b
    exact ⟨[], [], rfl, by simp, by simp⟩
  | cons q rest ih =>
    intro b
    by_cases hq : q.2 > b.2
    · obtain ⟨l1, l2, heq, hlt, hle⟩ := ih q
      have hfold : (q :: rest).foldl pickStep b = rest.foldl pickStep q := by
        simp [pickStep, hq]
      rw [hfold]
      refine ⟨b :: l1, l2, by rw [heq]; rfl, ?_, ?_⟩
      · intro p hp
        rcases List.mem_cons.mp hp with h | h
        · subst h
          exact lt_of_lt_of_le hq (hle q (by simp))
        · exact hlt p h
      · intro p hp
        rcases List.mem_cons.mp hp with h | h
        · subst h
          exact le_of_lt (lt_of_lt_of_le hq (hle q (by simp)))
        · exact hle p h
    · obtain ⟨l1, l2, heq, hlt, hle⟩ := ih b
      have hfold : (q :: rest).foldl pickStep b = rest.foldl pickStep b := by
        simp [pickStep, hq]
      rw [hfold]
      have hqb : q.2 ≤ b.2 := by omega
      have hble : b.2 ≤ (rest.foldl pickStep b).2 := hle b (by simp)
      rcases l1 with _ | ⟨x, l1'⟩
      · rw [List.nil_append] at heq
        injection heq with hb htl
        refine ⟨[], q :: l2, ?_, by simp, ?_⟩
        · rw [List.nil_append, ← hb, htl]
        · intro p hp
          rcases List.mem_cons.mp hp with h | h
          · have hp2 : p.2 = b.2 := by rw [h]
            omega
          · rcases List.mem_cons.mp h with h' | h'
            · have hp2 : p.2 = q.2 := by rw [h']
              omega
            · exact hle p (by simp [h'])
      · injection heq with hx htl
        have hb2 : b.2 < (rest.foldl pickStep b).2 := by
          have hxl := hlt x (by simp)
          rw [← hx] at hxl
          exact hxl
        refine ⟨b :: q :: l1', l2, ?_, ?_, ?_⟩
        · conv_lhs => rw [htl]
          rfl
        · intro p hp
          rcases List.mem_cons.mp hp with h | h
          · have hp2 : p.2 = b.2 := by rw [h]
            omega
          · rcases List.mem_cons.mp h with h' | h'
            · have hp2 : p.2 = q.2 := by rw [h']
              omega
            · exact hlt p (by simp [h'])
        · intro p hp
          rcases List.mem_cons.mp hp with h | h
          · have hp2 : p.2 = b.2 := by rw [h]
            omega
          · rcases List.mem_cons.mp h with h' | h'
            · have hp2 : p.2 = q.2 := by rw [h']
              omega
            · exact hle p (by simp [h'])

/-- `pickMax` returns an element whose count dominates the whole list and
strictly dominates everything before it. -/
theorem pickMax_spec (l : List (String × Nat)) (p : String × Nat)
    (h : pickMax l = some p) :
    ∃ l1 l2, l = l1 ++ p :: l2 ∧ (∀ q ∈ l1, q.2 < p.2) ∧
      ∀ q ∈ l, q.2 ≤ p.2 := by
  match l with
  | [] => simp [pickMax] at h
  | b :: rest =>
    simp only [pickMax, Option.some.injEq] at h
    obtain ⟨l1, l2, heq, hlt, hle⟩ := pickMax_fold rest b
    rw [h] at heq hlt hle
    exact ⟨l1, l2, heq, hlt, hle⟩

theorem bumpCount_of_not_mem (l : List (String × Nat)) (k : String)
    (h : k ∉ l.map Prod.fst) : bumpCount l k = l ++ [(k, 1)] := by
  induction l with
  | nil => rfl
  | cons p rest ih =>
    obtain ⟨pk, pv⟩ := p
    simp only [List.map_cons, List.mem_cons, not_or] at h
    simp only [bumpCount, if_neg (Ne.symm h.1), List.cons_append]
    rw [ih h.2]

theorem bumpCount_of_mem (l : List (String × Nat)) (k : String)
    (h : k ∈ l.map Prod.fst) :
    ∃ l1 c l2, l = l1 ++ (k, c) :: l2 ∧
      bumpCount l k = l1 ++ (k, c + 1) :: l2 ∧ k ∉ l1.map Prod.fst := by
  induction l with
  | nil => simp at h
  | cons p rest ih =>
    obtain ⟨pk, pv⟩ := p
    by_cases hp : pk = k
    · refine ⟨[], pv, rest, ?_, ?_, by simp⟩
      · rw [hp]
        rfl
      · simp only [bumpCount, if_pos hp]
        rw [hp]
        rfl
    · simp only [List.map_cons, List.mem_cons] at h
      rcases h with h | h
      · exact absurd h.symm hp
      · obtain ⟨l1, c, l2, hsplit, hbump, hnot⟩ := ih h
        refine ⟨(pk, pv) :: l1, c, l2, ?_, ?_, ?_⟩
        · rw [List.cons_append, ← hsplit]
        · simp only [bumpCount, if_neg hp]
          rw [hbump]
          rfl
        · simp only [List.map_cons, List.mem_cons, not_or]
          exact ⟨fun hh => hp hh.symm, hnot⟩

/-- The invariant tying an insertion-ordered counter to the list of keys
it counted: entries carry exact occurrence counts, every counted key is
present exactly once, and entries appear in first-seen order. -/
structure CountsSpec (ks : List String) (cl : List (String × Nat)) : Prop where
  entry : ∀ p ∈ cl, p.1 ∈ ks ∧ p.2 = ks.count p.1
  keyMem : ∀ k ∈ ks, k ∈ cl.map Prod.fst
  nodup : (cl.map Prod.fst).Nodup
  ord : (cl.map Prod.fst).Pairwise (fun a b => ks.indexOf a < ks.indexOf b)

theorem countsSpec_bump (ks : List String) (cl : List (String × Nat))
    (k : String) (S : CountsSpec ks cl) :
    CountsSpec (ks ++ [k]) (bumpCount cl k) := by
  have hsub : ∀ a ∈ cl.map Prod.fst, a ∈ ks := by
    intro a ha
    obtain ⟨p, hp, hpe⟩ := List.mem_map.mp ha
    exact hpe ▸ (S.entry p hp).1
  have hold : ∀ p ∈ cl, p.1 ≠ k →
      p.1 ∈ ks ++ [k] ∧ p.2 = (ks ++ [k]).count p.1 := by
    intro p hpcl hpk
    obtain ⟨hin, hcnt⟩ := S.entry p hpcl
    refine ⟨List.mem_append.mpr (Or.inl hin), ?_⟩
    rw [List.count_append]
    simp [List.count_cons, hpk, hcnt]
  by_cases hk : k ∈ cl.map Prod.fst
  · obtain ⟨l1, c, l2, hsplit, hbump, hkl1⟩ := bumpCount_of_mem cl k hk
    have hkeys : (bumpCount cl k).map Prod.fst = cl.map Prod.fst := by
      rw [hbump, hsplit]
      simp
    have hmapsplit : cl.map Prod.fst =
        l1.map Prod.fst ++ k :: l2.map Prod.fst := by
      rw [hsplit]
      simp
    have hkl2 : k ∉ l2.map Prod.fst := by
      have hnd := S.nodup
      rw [hmapsplit] at hnd
      exact (List.nodup_cons.mp (List.nodup_append.mp hnd).2.1).1
    refine ⟨?_, ?_, ?_, ?_⟩
    · intro p hp
      rw [hbump] at hp
      rcases List.mem_append.mp hp with h1 | h2
      · exact hold p (by rw [hsplit]; exact List.mem_append.mpr (Or.inl h1))
          (fun he => hkl1 (he ▸ List.mem_map_of_mem Prod.fst h1))
      · rcases List.mem_cons.mp h2 with h3 | h4
        · subst h3
          have hkc : (k, c) ∈ cl := by rw [hsplit]; simp
          have hkcnt := (S.entry (k, c) hkc).2
          simp only at hkcnt
          refine ⟨by simp, ?_⟩
          show c + 1 = (ks ++ [k]).count k
          rw [List.count_append]
          simp only [List.count_cons, List.count_nil]
          simp
          omega
        · exact hold p
            (by rw [hsplit]
                exact List.mem_append.mpr (Or.inr (List.mem_cons.mpr (Or.inr h4))))
            (fun he => hkl2 (he ▸ List.mem_map_of_mem Prod.fst h4))
    · intro k' hk'
      rw [hkeys]
      rcases List.mem_append.mp hk' with h | h
      · exact S.keyMem k' h
      · rw [List.mem_singleton] at h
        subst h
        exact hk
    · rw [hkeys]
      exact S.nodup
    · rw [hkeys]
      refine S.ord.imp_of_mem ?_
      intro a b ha hb hr
      rw [List.indexOf_append_of_mem (hsub a ha),
        List.indexOf_append_of_mem (hsub b hb)]
      exact hr
  · have hbump := bumpCount_of_not_mem cl k hk
    have hknks : k ∉ ks := fun hin => hk (S.keyMem k hin)
    refine ⟨?_, ?_, ?_, ?_⟩
    · intro p hp
      rw [hbump] at hp
      rcases List.mem_append.mp hp with h1 | h2
      · exact hold p h1
          (fun he => hknks (he ▸ (S.entry p h1).1))
      · rw [List.mem_singleton] at h2
        subst h2
        refine ⟨by simp, ?_⟩
        show 1 = (ks ++ [k]).count k
        rw [List.count_append, List.count_eq_zero.mpr hknks]
        simp
    · intro k' hk'
      rw [hbump]
      simp only [List.map_append, List.map_cons, List.map_nil]
      rcases List.mem_append.mp hk' with h | h
      · exact List.mem_append.mpr (Or.inl (S.keyMem k' h))
      · rw [List.mem_singleton] at h
        subst h
        simp
    · rw [hbump]
      simp only [List.map_append, List.map_cons, List.map_nil]
      rw [List.nodup_append]
      refine ⟨S.nodup, by simp, ?_⟩
      intro a ha hb
      rw [List.mem_singleton] at hb
      subst hb
      exact hk ha
    · rw [hbump]
      simp only [List.map_append, List.map_cons, List.map_nil]
      rw [List.pairwise_append]
      refine ⟨?_, by simp, ?_⟩
      · refine S.ord.imp_of_mem ?_
        intro a b ha hb hr
        rw [List.indexOf_append_of_mem (hsub a ha),
          List.indexOf_append_of_mem (hsub b hb)]
        exact hr
      · intro a ha b hb
        rw [List.mem_singleton] at hb
        subst hb
        rw [List.indexOf_append_of_mem (hsub a ha),
          List.indexOf_append_of_not_mem hknks, List.indexOf_cons_self]
        have h1 : ks.indexOf a < ks.length :=
          List.indexOf_lt_length.mpr (hsub a ha)
        omega

/-- The counter built by `countsOf` satisfies the invariant. -/
theorem countsSpec_countsOf (ks : List String) : CountsSpec ks (countsOf ks) := by
  induction ks using List.reverseRecOn with
  | nil =>
    exact ⟨by simp [countsOf], by simp, by simp [countsOf], by simp [countsOf]⟩
  | append_singleton ks k ih =>
    have h : countsOf (ks ++ [k]) = bumpCount (countsOf ks) k := by
      simp [countsOf, List.foldl_append]
    rw [h]
    exact countsSpec_bump ks (countsOf ks) k ih

/-- Combined specification of `max` over an insertion-ordered counter:
the winner occurs in `ks`, carries the exact occurrence count, dominates
every other count, and on ties has the earliest first occurrence. -/
theorem pickMax_countsOf_spec (ks : List String) (b : String) (c : Nat)
    (h : pickMax (countsOf ks) = some (b, c)) :
    b ∈ ks ∧ c = ks.count b ∧ (∀ e ∈ ks, ks.count e ≤ c) ∧
      ∀ e ∈ ks, ks.count e = c → ks.indexOf b ≤ ks.indexOf e := by
  obtain ⟨l1, l2, hsplit, hlt, hle⟩ := pickMax_spec _ _ h
  have S := countsSpec_countsOf ks
  have hmem : (b, c) ∈ countsOf ks := by rw [hsplit]; simp
  obtain ⟨hbks, hbc⟩ := S.entry (b, c) hmem
  simp only at hbks hbc
  have hentry : ∀ e ∈ ks, ∃ p ∈ countsOf ks, p.1 = e ∧ p.2 = ks.count e := by
    intro e he
    obtain ⟨p, hp, hpe⟩ := List.mem_map.mp (S.keyMem e he)
    exact ⟨p, hp, hpe, hpe ▸ (S.entry p hp).2⟩
  refine ⟨hbks, hbc, ?_, ?_⟩
  · intro e he
    obtain ⟨p, hp, hpe, hpc⟩ := hentry e he
    have := hle p hp
    omega
  · intro e he hce
    obtain ⟨p, hp, hpe, hpc⟩ := hentry e he
    rw [hsplit] at hp
    rcases List.mem_append.mp hp with h1 | h2
    · have := hlt p h1
      omega
    · rcases List.mem_cons.mp h2 with h3 | h4
      · rw [← hpe, h3]
      · have hord := S.ord
        rw [hsplit] at hord
        simp only [List.map_append, List.map_cons] at hord
        have hpair := (List.pairwise_append.mp hord).2.1
        have hball := (List.pairwise_cons.mp hpair).1
        have hplt : ks.indexOf b < ks.indexOf p.1 :=
          hball p.1 (List.mem_map_of_mem Prod.fst h4)
        rw [hpe] at hplt
        omega

/-- On a nonempty key list `pickMax` over the counter always succeeds. -/
theorem pickMax_countsOf_isSome (ks : List String) (hne : ks ≠ []) :
    ∃ p, pickMax (countsOf ks) = some p := by
  obtain ⟨k, hk⟩ := List.exists_mem_of_ne_nil ks hne
  have hmem := (countsSpec_countsOf ks).keyMem k hk
  rcases hcl : countsOf ks with _ | ⟨p, rest⟩
  · rw [hcl] at hmem
    simp at hmem
  · exact ⟨rest.foldl pickStep p, rfl⟩

/-! ## Pooled records and the Identity Resolver

`build_detail_table` (`src/HRTool.py:575-649`) works on the consolidated
pool.  A pooled record is its list of named cells plus the `__priority__`
tag.  `str(row.get(col, "")).strip()` on a possibly-NaN cell is
`strTrim (cellToStr ...)`; a cell a sheet did not supply is NaN. -/

structure Row where
  cells : List (String × CellValue)
  priority : Int
deriving DecidableEq

/-- Read a named cell (missing cells are NaN after `pd.concat`). -/
def getCell (r : Row) (col : String) : CellValue :=
  (alookup col r.cells).getD .na

/-- `str(row.get("社員番号", "")).strip()`. -/
def empStr (r : Row) : String := strTrim (cellToStr (getCell r "社員番号"))

/-- `str(row.get("氏名", "")).strip()`. -/
def nameStr (r : Row) : String := strTrim (cellToStr (getCell r "氏名"))

/-- The source's guard `s and s != "nan" and s != ""` on a stripped
cell string. -/
def validId (s : String) : Prop := s ≠ "" ∧ s ≠ "nan"

instance : DecidablePred validId := fun s =>
  inferInstanceAs (Decidable (s ≠ "" ∧ s ≠ "nan"))

/-- Adding to a Python `set`, modelled as an append-if-new list (only
membership, size and the sole element of a singleton are ever used). -/
def insertNew (l : List String) (x : String) : List String :=
  if x ∈ l then l else l ++ [x]

/-- `name_to_emp[n]`: the set of employee numbers co-occurring with name
`n` on some record, built by the first scan of `build_detail_table`
(`src/HRTool.py:598-607`). -/
def nameEmps (pool : List Row) (n : String) : List String :=
  pool.foldl
    (fun acc r =>
      if validId (empStr r) ∧ validId (nameStr r) ∧ nameStr r = n then
        insertNew acc (empStr r)
      else acc) []

/-- `emp_counts` for name `n` (`src/HRTool.py:615-621`): occurrences of
each number of `emps` among records carrying exactly name `n`. -/
def empCounts (pool : List Row) (n : String) (emps : List String) :
    List (String × Nat) :=
  pool.foldl
    (fun acc r =>
      if nameStr r = n ∧ empStr r ∈ emps then bumpCount acc (empStr r)
      else acc) []

/-- `name_to_primary_emp` as a lookup function
(`src/HRTool.py:609-630`): no entry when the name co-occurs with no
number; the most frequent number (Python `max`, first maximum wins) when
there are several; the unique number otherwise. -/
def nameToPrimaryEmp (pool : List Row) (n : String) : Option String :=
  let emps := nameEmps pool n
  if emps.isEmpty then none
  else if 1 < emps.length then
    (pickMax (empCounts pool n emps)).map Prod.fst
  else emps.head?

/-- `create_merge_key` (`src/HRTool.py:580-592`), the provisional key
that `update_merge_key` later overwrites; `uid` stands for the unique
`id(row)`. -/
def create_merge_key (r : Row) (uid : Nat) : String :=
  if validId (empStr r) then "emp:" ++ empStr r
  else if validId (nameStr r) then "name:" ++ nameStr r
  else "unknown:" ++ toString uid

/-- `update_merge_key` (`src/HRTool.py:633-647`): a record whose name has
a primary number is keyed by that number, overriding its own number. -/
def update_merge_key (pool : List Row) (r : Row) (uid : Nat) : String :=
  match nameToPrimaryEmp pool (nameStr r) with
  | some primary => "emp:" ++ primary
  | none =>
    if validId (empStr r) then "emp:" ++ empStr r
    else if validId (nameStr r) then "name:" ++ nameStr r
    else "unknown:" ++ toString uid

/-- The numbers carried by pool records whose name is exactly `n`, in
pool order (the specification's "records sharing that exact name"). -/
def nameOccEmps (pool : List Row) (n : String) : List String :=
  pool.filterMap
    (fun r =>
      if nameStr r = n ∧ validId (empStr r) then some (empStr r) else none)

theorem mem_insertNew (l : List String) (x e : String) :
    e ∈ insertNew l x ↔ e ∈ l ∨ e = x := by
  unfold insertNew
  by_cases hx : x ∈ l
  · rw [if_pos hx]
    constructor
    · exact Or.inl
    · rintro (h | h)
      · exact h
      · exact h ▸ hx
  · rw [if_neg hx]
    simp

theorem mem_nameEmps_aux (n e : String) :
    ∀ (pool : List Row) (acc : List String),
      (e ∈ pool.foldl
        (fun acc r =>
          if validId (empStr r) ∧ validId (nameStr r) ∧ nameStr r = n then
            insertNew acc (empStr r)
          else acc) acc) ↔
      e ∈ acc ∨ ∃ r ∈ pool,
        (validId (empStr r) ∧ validId (nameStr r) ∧ nameStr r = n) ∧
          empStr r = e
  | [], acc => by simp
  | r :: pool, acc => by
    simp only [List.foldl_cons, List.exists_mem_cons_iff]
    rw [mem_nameEmps_aux n e pool]
    by_cases hc : validId (empStr r) ∧ validId (nameStr r) ∧ nameStr r = n
    · rw [if_pos hc, mem_insertNew]
      constructor
      · rintro (⟨h | h⟩ | h)
        · exact Or.inl h
        · exact Or.inr (Or.inl ⟨hc, h.symm⟩)
        · exact Or.inr (Or.inr h)
      · rintro (h | ⟨⟨_, h⟩ | h⟩)
        · exact Or.inl (Or.inl h)
        · exact Or.inl (Or.inr h.symm)
        · exact Or.inr h
    · rw [if_neg hc]
      constructor
      · rintro (h | h)
        · exact Or.inl h
        · exact Or.inr (Or.inr h)
      · rintro (h | ⟨⟨hcc, _⟩ | h⟩)
        · exact Or.inl h
        · exact absurd hcc hc
        · exact Or.inr h

/-- Membership in the number set of a name. -/
theorem mem_nameEmps (pool : List Row) (n e : String) :
    e ∈ nameEmps pool n ↔
      ∃ r ∈ pool,
        (validId (empStr r) ∧ validId (nameStr r) ∧ nameStr r = n) ∧
          empStr r = e := by
  rw [nameEmps, mem_nameEmps_aux n e pool]
  simp

theorem foldl_bump_filter (c : Row → Prop) [DecidablePred c]
    (g : Row → String) :
    ∀ (pool : List Row) (acc : List (String × Nat)),
      pool.foldl (fun acc r => if c r then bumpCount acc (g r) else acc) acc
        = (pool.filterMap
            (fun r => if c r then some (g r) else none)).foldl bumpCount acc
  | [], _ => rfl
  | r :: pool, acc => by
    simp only [List.foldl_cons, List.filterMap_cons]
    by_cases hc : c r
    · simp only [if_pos hc]
      rw [foldl_bump_filter c g pool]
      rfl
    · simp only [if_neg hc]
      exact foldl_bump_filter c g pool acc

theorem filterMap_cond_congr (c1 c2 : Row → Prop) [DecidablePred c1]
    [DecidablePred c2] (g : Row → String) (pool : List Row)
    (h : ∀ r ∈ pool, c1 r ↔ c2 r) :
    pool.filterMap (fun r => if c1 r then some (g r) else none)
      = pool.filterMap (fun r => if c2 r then some (g r) else none) := by
  induction pool with
  | nil => rfl
  | cons r pool ih =>
    simp only [List.filterMap_cons]
    have hr := h r (by simp)
    have hrest := ih fun r' hr' => h r' (by simp [hr'])
    by_cases hc : c1 r
    · rw [if_pos hc, if_pos (hr.mp hc), hrest]
    · rw [if_neg hc, if_neg (fun hcc => hc (hr.mpr hcc)), hrest]

/-- For a valid name, the counting pass of the resolver counts exactly
the numbers of the records carrying that name. -/
theorem empCounts_eq_countsOf (pool : List Row) (n : String)
    (hnv : validId n) :
    empCounts pool n (nameEmps pool n) = countsOf (nameOccEmps pool n) := by
  rw [empCounts,
    foldl_bump_filter (fun r => nameStr r = n ∧ empStr r ∈ nameEmps pool n)
      empStr pool]
  rw [nameOccEmps, countsOf]
  congr 1
  apply filterMap_cond_congr
  intro r hr
  constructor
  · rintro ⟨h1, h2⟩
    obtain ⟨r', _, ⟨⟨hv, _, _⟩, he⟩⟩ := (mem_nameEmps pool n _).mp h2
    exact ⟨h1, he ▸ hv⟩
  · rintro ⟨h1, h2⟩
    refine ⟨h1, (mem_nameEmps pool n _).mpr ⟨r, hr, ⟨⟨h2, ?_, h1⟩, rfl⟩⟩⟩
    rw [h1]
    exact hnv

/-- Occurrence counts in `nameOccEmps` are record counts: for a valid
number `e`, its count equals the number of pool records whose name is
`n` and whose number is `e`. -/
theorem count_nameOccEmps (pool : List Row) (n e : String)
    (he : validId e) :
    (nameOccEmps pool n).count e =
      pool.countP (fun r => decide (nameStr r = n ∧ empStr r = e)) := by
  induction pool with
  | nil => rfl
  | cons r pool ih =>
    simp only [nameOccEmps, List.filterMap_cons, List.countP_cons] at ih ⊢
    by_cases h1 : nameStr r = n
    · by_cases h2 : empStr r = e
      · rw [if_pos ⟨h1, h2 ▸ he⟩]
        rw [List.count_cons]
        simp [ih, h1, h2]
      · by_cases h3 : validId (empStr r)
        · rw [if_pos ⟨h1, h3⟩, List.count_cons]
          simp [ih, h2]
        · rw [if_neg (fun hc => h3 hc.2)]
          simp [ih, h2]
    · rw [if_neg (fun hc => h1 hc.1)]
      simp [ih, h1]

theorem one_lt_length_of_two_mem (l : List String) (a b : String)
    (ha : a ∈ l) (hb : b ∈ l) (hab : a ≠ b) : 1 < l.length := by
  match l with
  | [] => simp at ha
  | [x] =>
    rw [List.mem_singleton] at ha hb
    exact absurd (ha.trans hb.symm) hab
  | x :: y :: rest => simp

theorem mem_nameOccEmps (pool : List Row) (n e : String) :
    e ∈ nameOccEmps pool n ↔
      ∃ r ∈ pool, nameStr r = n ∧ validId (empStr r) ∧ empStr r = e := by
  unfold nameOccEmps
  simp only [List.mem_filterMap]
  constructor
  · rintro ⟨r, hr, hif⟩
    by_cases hc : nameStr r = n ∧ validId (empStr r)
    · rw [if_pos hc] at hif
      exact ⟨r, hr, hc.1, hc.2, Option.some.inj hif⟩
    · rw [if_neg hc] at hif
      exact absurd hif (by simp)
  · rintro ⟨r, hr, hn, hv, he⟩
    exact ⟨r, hr, by rw [if_pos ⟨hn, hv⟩, he]⟩

/-- C1: in one resolution run, two pool records with the same non-empty
trimmed name, each carrying a distinct non-empty number, receive the
same MergeKey; the key's number is the most frequent number among
records carrying exactly that name, ties resolved in favour of the
first-seen number. -/
theorem c1_same_name_same_key_majority_number (pool : List Row)
    (r1 r2 : Row) (n : String) (h1 : r1 ∈ pool) (h2 : r2 ∈ pool)
    (hn1 : nameStr r1 = n) (hn2 : nameStr r2 = n) (hnv : validId n)
    (he1 : validId (empStr r1)) (he2 : validId (empStr r2))
    (hne : empStr r1 ≠ empStr r2) (u1 u2 : Nat) :
    update_merge_key pool r1 u1 = update_merge_key pool r2 u2 ∧
    ∃ best,
      update_merge_key pool r1 u1 = "emp:" ++ best ∧
      best ∈ nameOccEmps pool n ∧
      (∀ e, validId e →
        pool.countP (fun r => decide (nameStr r = n ∧ empStr r = e)) ≤
          pool.countP (fun r => decide (nameStr r = n ∧ empStr r = best))) ∧
      ∀ e ∈ nameOccEmps pool n,
        (nameOccEmps pool n).count e = (nameOccEmps pool n).count best →
          (nameOccEmps pool n).indexOf best ≤ (nameOccEmps pool n).indexOf e := by
  have hnv1 : validId (nameStr r1) := hn1 ▸ hnv
  have hnv2 : validId (nameStr r2) := hn2 ▸ hnv
  have he1m : empStr r1 ∈ nameEmps pool n :=
    (mem_nameEmps pool n _).mpr ⟨r1, h1, ⟨⟨he1, hnv1, hn1⟩, rfl⟩⟩
  have he2m : empStr r2 ∈ nameEmps pool n :=
    (mem_nameEmps pool n _).mpr ⟨r2, h2, ⟨⟨he2, hnv2, hn2⟩, rfl⟩⟩
  have hlen : 1 < (nameEmps pool n).length :=
    one_lt_length_of_two_mem _ _ _ he1m he2m hne
  have hempsne : ¬(nameEmps pool n).isEmpty = true := by
    intro hh
    rw [List.isEmpty_iff] at hh
    rw [hh] at he1m
    simp at he1m
  have hocc1 : empStr r1 ∈ nameOccEmps pool n :=
    (mem_nameOccEmps pool n _).mpr ⟨r1, h1, hn1, he1, rfl⟩
  have hoccne : nameOccEmps pool n ≠ [] := by
    intro hh
    rw [hh] at hocc1
    simp at hocc1
  obtain ⟨⟨b, c⟩, hpick⟩ := pickMax_countsOf_isSome (nameOccEmps pool n) hoccne
  obtain ⟨hbmem, hbc, hmax, htie⟩ := pickMax_countsOf_spec _ _ _ hpick
  have hbv : validId b := by
    obtain ⟨r, _, _, hv, he⟩ := (mem_nameOccEmps pool n b).mp hbmem
    exact he ▸ hv
  have hprim : nameToPrimaryEmp pool n = some b := by
    simp only [nameToPrimaryEmp]
    rw [if_neg hempsne, if_pos hlen, empCounts_eq_countsOf pool n hnv, hpick]
    rfl
  have hk1 : update_merge_key pool r1 u1 = "emp:" ++ b := by
    unfold update_merge_key
    rw [hn1, hprim]
  have hk2 : update_merge_key pool r2 u2 = "emp:" ++ b := by
    unfold update_merge_key
    rw [hn2, hprim]
  refine ⟨by rw [hk1, hk2], b, hk1, hbmem, ?_, ?_⟩
  · intro e hev
    rw [← count_nameOccEmps pool n e hev, ← count_nameOccEmps pool n b hbv]
    by_cases hem : e ∈ nameOccEmps pool n
    · have hle := hmax e hem
      omega
    · rw [List.count_eq_zero.mpr hem]
      exact Nat.zero_le _
  · intro e hem hce
    exact htie e hem (by omega)

/-- Witness for C1: a pool where name `A` carries numbers 1, 2 and 1;
both conflicting records are keyed `emp:1`. -/
theorem c1_same_name_same_key_majority_number_witness :
    update_merge_key
        [⟨[("社員番号", .vstr "1"), ("氏名", .vstr "A")], 10⟩,
         ⟨[("社員番号", .vstr "2"), ("氏名", .vstr "A")], 10⟩,
         ⟨[("社員番号", .vstr "1"), ("氏名", .vstr "A")], 10⟩]
        ⟨[("社員番号", .vstr "1"), ("氏名", .vstr "A")], 10⟩ 0
      = update_merge_key
        [⟨[("社員番号", .vstr "1"), ("氏名", .vstr "A")], 10⟩,
         ⟨[("社員番号", .vstr "2"), ("氏名", .vstr "A")], 10⟩,
         ⟨[("社員番号", .vstr "1"), ("氏名", .vstr "A")], 10⟩]
        ⟨[("社員番号", .vstr "2"), ("氏名", .vstr "A")], 10⟩ 1 :=
  (c1_same_name_same_key_majority_number
    [⟨[("社員番号", .vstr "1"), ("氏名", .vstr "A")], 10⟩,
     ⟨[("社員番号", .vstr "2"), ("氏名", .vstr "A")], 10⟩,
     ⟨[("社員番号", .vstr "1"), ("氏名", .vstr "A")], 10⟩]
    ⟨[("社員番号", .vstr "1"), ("氏名", .vstr "A")], 10⟩
    ⟨[("社員番号", .vstr "2"), ("氏名", .vstr "A")], 10⟩ "A"
    (by decide) (by decide) (by decide) (by decide) (by decide)
    (by decide) (by decide) (by decide) 0 1).1

/-- Counterexample to C3 as stated: records three and four of this pool
share the non-empty number `2`, yet the third record's name `A` is
alias-mapped to the majority number `1`, so its key is `emp:1` while the
fourth record keeps `emp:2`. -/
theorem c3_counterexample_shared_number_different_keys :
    empStr ⟨[("社員番号", .vstr "2"), ("氏名", .vstr "A")], 10⟩
        = empStr ⟨[("社員番号", .vstr "2"), ("氏名", .vstr "")], 10⟩
    ∧ validId (empStr ⟨[("社員番号", .vstr "2"), ("氏名", .vstr "A")], 10⟩)
    ∧ update_merge_key
        [⟨[("社員番号", .vstr "1"), ("氏名", .vstr "A")], 10⟩,
         ⟨[("社員番号", .vstr "1"), ("氏名", .vstr "A")], 10⟩,
         ⟨[("社員番号", .vstr "2"), ("氏名", .vstr "A")], 10⟩,
         ⟨[("社員番号", .vstr "2"), ("氏名", .vstr "")], 10⟩]
        ⟨[("社員番号", .vstr "2"), ("氏名", .vstr "A")], 10⟩ 2
      ≠ update_merge_key
        [⟨[("社員番号", .vstr "1"), ("氏名", .vstr "A")], 10⟩,
         ⟨[("社員番号", .vstr "1"), ("氏名", .vstr "A")], 10⟩,
         ⟨[("社員番号", .vstr "2"), ("氏名", .vstr "A")], 10⟩,
         ⟨[("社員番号", .vstr "2"), ("氏名", .vstr "")], 10⟩]
        ⟨[("社員番号", .vstr "2"), ("氏名", .vstr "")], 10⟩ 3 := by
  decide

/-- C3 as amended: two pool records carrying the same non-empty employee
number receive the same MergeKey provided neither record's name is
alias-mapped to a different primary number (in particular whenever the
name-to-primary-number mapping is absent for their names or agrees with
that number). -/
theorem c3_same_number_same_key_unless_aliased (pool : List Row)
    (r1 r2 : Row) (h1 : r1 ∈ pool) (h2 : r2 ∈ pool)
    (he : empStr r1 = empStr r2) (hv : validId (empStr r1))
    (ha1 : nameToPrimaryEmp pool (nameStr r1) = none ∨
      nameToPrimaryEmp pool (nameStr r1) = some (empStr r1))
    (ha2 : nameToPrimaryEmp pool (nameStr r2) = none ∨
      nameToPrimaryEmp pool (nameStr r2) = some (empStr r2))
    (u1 u2 : Nat) :
    update_merge_key pool r1 u1 = update_merge_key pool r2 u2 := by
  have hv2 : validId (empStr r2) := he ▸ hv
  have k1 : update_merge_key pool r1 u1 = "emp:" ++ empStr r1 := by
    unfold update_merge_key
    rcases ha1 with h | h
    · rw [h, if_pos hv]
    · rw [h]
  have k2 : update_merge_key pool r2 u2 = "emp:" ++ empStr r2 := by
    unfold update_merge_key
    rcases ha2 with h | h
    · rw [h, if_pos hv2]
    · rw [h]
  rw [k1, k2, he]

/-- Witness for amended C3: both records carry number `7`; the name `X`
is mapped to `7` itself and the blank name is unmapped. -/
theorem c3_same_number_same_key_unless_aliased_witness :
    update_merge_key
        [⟨[("社員番号", .vstr "7"), ("氏名", .vstr "X")], 10⟩,
         ⟨[("社員番号", .vstr "7"), ("氏名", .vstr "")], 10⟩]
        ⟨[("社員番号", .vstr "7"), ("氏名", .vstr "X")], 10⟩ 0
      = update_merge_key
        [⟨[("社員番号", .vstr "7"), ("氏名", .vstr "X")], 10⟩,
         ⟨[("社員番号", .vstr "7"), ("氏名", .vstr "")], 10⟩]
        ⟨[("社員番号", .vstr "7"), ("氏名", .vstr "")], 10⟩ 1 :=
  c3_same_number_same_key_unless_aliased
    [⟨[("社員番号", .vstr "7"), ("氏名", .vstr "X")], 10⟩,
     ⟨[("社員番号", .vstr "7"), ("氏名", .vstr "")], 10⟩]
    ⟨[("社員番号", .vstr "7"), ("氏名", .vstr "X")], 10⟩
    ⟨[("社員番号", .vstr "7"), ("氏名", .vstr "")], 10⟩
    (by decide) (by decide) (by decide) (by decide)
    (by decide) (by decide) 0 1

/-! ## Field merger -/

/-- `TARGET_COLUMNS` (`src/HRTool.py:34-39`): the canonical schema. -/
def TARGET_COLUMNS : List String :=
  ["社員番号", "氏名", "フリガナ", "生年月日", "性別", "入社年月日",
   "所属コード", "所属名", "資格コード", "資格名", "職位コード", "職位名",
   "健保コード", "NO", "雇用形態", "退職年月日",
   "学校名", "学科名", "勤務地", "本部", "所属部", "昇給日"]

/-- `DATE_COLUMNS` (`src/HRTool.py:42`). -/
def DATE_COLUMNS : List String := ["生年月日", "入社年月日", "退職年月日"]

/-- A cell that survives `dropna()` and the `astype(str).str.strip() != ""`
filter of the field-selection loop. -/
def nonBlank (v : CellValue) : Prop :=
  v ≠ .na ∧ strTrim (cellToStr v) ≠ ""

instance : DecidablePred nonBlank := fun v =>
  inferInstanceAs (Decidable (v ≠ .na ∧ strTrim (cellToStr v) ≠ ""))

/-- The ordering used by `group.sort_values("__priority__")`. -/
def prioLe (a b : Row) : Prop := a.priority ≤ b.priority

instance : DecidableRel prioLe := fun a b =>
  inferInstanceAs (Decidable (a.priority ≤ b.priority))

instance : IsTotal Row prioLe := ⟨fun a b => Int.le_total a.priority b.priority⟩

instance : IsTrans Row prioLe := ⟨fun _ _ _ h1 h2 => le_trans h1 h2⟩

/-- `group.sort_values("__priority__")`. -/
def sortGroup (g : List Row) : List Row :=
  List.insertionSort prioLe g

/-- The first non-blank value of column `col` of the group in priority
order (`src/HRTool.py:671-676`). -/
def selectValue (g : List Row) (col : String) : Option CellValue :=
  (((sortGroup g).map (fun r => getCell r col)).filter
    (fun v => decide (nonBlank v))).head?

/-- The resolved value for column `col` of a merge group
(`src/HRTool.py:669-689`): the selected value, date columns normalised
by `convert_excel_date`, all-blank columns resolving to `""`. -/
def resolveField (g : List Row) (col : String) : CellValue :=
  match selectValue g col with
  | some v =>
    if col ∈ DATE_COLUMNS then .vstr (convert_excel_date v) else v
  | none => .vstr ""

/-- C2: when `r1` is the group's strictly most-preferred record (its
priority is strictly below every other record's, the spec's `p1 < p2`)
and its value for the field is non-empty after trimming, the resolver
selects `r1`'s value for that field regardless of what any other record
contains; the resolved value is that value, date-normalised on date
columns. -/
theorem c2_priority_first_nonblank_wins (g : List Row) (r1 : Row)
    (col : String) (h1 : r1 ∈ g)
    (hmin : ∀ r ∈ g, r = r1 ∨ r1.priority < r.priority)
    (hnb : nonBlank (getCell r1 col)) :
    selectValue g col = some (getCell r1 col) ∧
    resolveField g col =
      (if col ∈ DATE_COLUMNS then
        .vstr (convert_excel_date (getCell r1 col))
       else getCell r1 col) := by
  have hperm := List.perm_insertionSort prioLe g
  have hsorted := List.sorted_insertionSort prioLe g
  have hr1s : r1 ∈ List.insertionSort prioLe g := hperm.mem_iff.mpr h1
  obtain ⟨x, t, hs⟩ := List.exists_cons_of_ne_nil (List.ne_nil_of_mem hr1s)
  have hxg : x ∈ g := hperm.mem_iff.mp (hs ▸ List.mem_cons_self x t)
  have hx : x = r1 := by
    rcases hmin x hxg with h | h
    · exact h
    · rw [hs] at hr1s hsorted
      rcases List.mem_cons.mp hr1s with h1' | h1'
      · exact h1'.symm
      · have hrel := List.rel_of_sorted_cons hsorted r1 h1'
        unfold prioLe at hrel
        omega
  subst hx
  have hsel : selectValue g col = some (getCell x col) := by
    unfold selectValue sortGroup
    rw [hs]
    simp only [List.map_cons, List.filter_cons, decide_eq_true hnb]
    rfl
  refine ⟨hsel, ?_⟩
  unfold resolveField
  rw [hsel]

/-- Witness for C2 on a two-record group with priorities 0 < 10. -/
theorem c2_priority_first_nonblank_wins_witness :
    selectValue
        [⟨[("氏名", .vstr "Alice")], 0⟩, ⟨[("氏名", .vstr "Bob")], 10⟩]
        "氏名"
      = some (getCell ⟨[("氏名", .vstr "Alice")], 0⟩ "氏名") :=
  (c2_priority_first_nonblank_wins
    [⟨[("氏名", .vstr "Alice")], 0⟩, ⟨[("氏名", .vstr "Bob")], 10⟩]
    ⟨[("氏名", .vstr "Alice")], 0⟩ "氏名"
    (by decide) (by decide) (by decide)).1

/-! ## Date parsing and tenure -/

/-- Python `int()` digit parsing after the first digit: single
underscores are permitted between digits. -/
def pyDigitsAux : List Char → Nat → Option Nat
  | [], acc => some acc
  | '_' :: c :: rest, acc =>
    if c.isDigit then pyDigitsAux rest (acc * 10 + (c.toNat - 48)) else none
  | c :: rest, acc =>
    if c.isDigit then pyDigitsAux rest (acc * 10 + (c.toNat - 48)) else none

/-- Digits of a Python `int()` literal (first character must be a digit). -/
def pyIntCore : List Char → Option Nat
  | [] => none
  | c :: rest =>
    if c.isDigit then pyDigitsAux rest (c.toNat - 48) else none

/-- Python `int(s)`: optional surrounding whitespace, optional sign,
then decimal digits. -/
def pyInt? (s : String) : Option Int :=
  match (strTrim s).data with
  | '+' :: rest => (pyIntCore rest).map Int.ofNat
  | '-' :: rest => (pyIntCore rest).map (fun n => -(n : Int))
  | cs => (pyIntCore cs).map Int.ofNat

/-- Python `str.split('/')` on the character list. -/
def splitOnChar (c : Char) : List Char → List (List Char)
  | [] => [[]]
  | x :: rest =>
    let r := splitOnChar c rest
    if x == c then [] :: r
    else
      match r with
      | [] => [[x]]
      | seg :: segs => (x :: seg) :: segs

/-- Python `date_str.split('/')`. -/
def splitSlash (s : String) : List String :=
  (splitOnChar '/' s.data).map (fun l => ⟨l⟩)

/-- Validity of `datetime(y, m, d)` (out-of-range arguments raise
`ValueError`, which the caller turns into `None`). -/
def validDate (y m d : Int) : Prop :=
  1 ≤ y ∧ y ≤ 9999 ∧ 1 ≤ m ∧ m ≤ 12 ∧ 1 ≤ d ∧
    d ≤ (daysInMonth y m.toNat : Int)

instance (y m d : Int) : Decidable (validDate y m d) :=
  inferInstanceAs (Decidable (_ ∧ _ ∧ _ ∧ _ ∧ _ ∧ _))

/-- `parse_date_string` (`src/HRTool.py:253-270`) on a string value:
blank strings, strings that do not split into exactly three `/`-parts,
unparseable components and invalid calendar dates all yield `None`. -/
def parse_date_string (s : String) : Option Date :=
  if strTrim s = "" then none
  else
    match splitSlash s with
    | [a, b, c] =>
      match pyInt? a, pyInt? b, pyInt? c with
      | some y, some m, some d =>
        if validDate y m d then some ⟨y, m.toNat, d.toNat⟩ else none
      | _, _, _ => none
    | _ => none

/-- Python tuple comparison `(a1, a2) < (b1, b2)`. -/
def pairLt (a b : Nat × Nat) : Prop :=
  a.1 < b.1 ∨ (a.1 = b.1 ∧ a.2 < b.2)

instance (a b : Nat × Nat) : Decidable (pairLt a b) :=
  inferInstanceAs (Decidable (_ ∨ _))

/-- `calculate_years_of_service` (`src/HRTool.py:273-286`) with
`datetime.now()` passed explicitly as `today`: whole years since the
parsed hire date, empty when unparseable or negative. -/
def calculate_years_of_service (today : Date) (s : String) : String :=
  match parse_date_string s with
  | none => ""
  | some h =>
    let years : Int :=
      today.y - h.y - (if pairLt (today.m, today.d) (h.m, h.d) then 1 else 0)
    if 0 ≤ years then toString years ++ "年" else ""

/-- Counterexample to C8 as stated: the hire date `"garbage"` cannot be
parsed, yet the resolved field carries `"garbage"`, not the empty
string — `convert_excel_date` passes strings through unchanged. -/
theorem c8_counterexample_unparseable_date_not_emptied :
    parse_date_string "garbage" = none
    ∧ resolveField [⟨[("入社年月日", .vstr "garbage")], 10⟩] "入社年月日"
        = .vstr "garbage"
    ∧ resolveField [⟨[("入社年月日", .vstr "garbage")], 10⟩] "入社年月日"
        ≠ .vstr "" := by
  decide

/-- C8 as amended: the field merger never raises on unparseable
date-typed values — `convert_excel_date` passes every string through
unchanged, so the resolved field keeps the original unparseable string
(it is not emptied); the derived tenure field degrades to the empty
string; only absent/blank values resolve to the empty string. -/
theorem c8_unparseable_dates_degrade (today : Date) :
    (∀ s : String, convert_excel_date (.vstr s) = s)
    ∧ (∀ s : String, parse_date_string s = none →
        calculate_years_of_service today s = "")
    ∧ resolveField [⟨[("入社年月日", .vstr "garbage")], 10⟩] "入社年月日"
        = .vstr "garbage"
    ∧ resolveField [⟨[("入社年月日", CellValue.na)], 10⟩] "入社年月日"
        = .vstr "" := by
  refine ⟨?_, ?_, by decide, by decide⟩
  · intro s
    by_cases h : s = "" <;> simp [convert_excel_date, h]
  · intro s h
    unfold calculate_years_of_service
    rw [h]

/-- Witness for amended C8 at `today = 2026-10-12`, hire date
`"garbage"`. -/
theorem c8_unparseable_dates_degrade_witness :
    calculate_years_of_service ⟨2026, 10, 12⟩ "garbage" = "" :=
  (c8_unparseable_dates_degrade ⟨2026, 10, 12⟩).2.1 "garbage" (by decide)

/-! ## Code Lookup Builder -/

/-- `str(cell).strip() if pd.notna(cell) else ""`, the cell extraction
of `build_master_maps`. -/
def codeCellStr (v : CellValue) : String :=
  match v with
  | .na => ""
  | v => strTrim (cellToStr v)

/-- `dict[code][name] += 1` on the nested insertion-ordered counter. -/
def bumpNested : List (String × List (String × Nat)) → String → String →
    List (String × List (String × Nat))
  | [], code, name => [(code, [(name, 1)])]
  | (c, inner) :: rest, code, name =>
    if c = code then (c, bumpCount inner name) :: rest
    else (c, inner) :: bumpNested rest code name

/-- One scan step of `build_master_maps` (`src/HRTool.py:513-536`): a
record contributes when both its code and its display name are
non-empty after stripping. -/
def masterStep (acc : List (String × List (String × Nat)))
    (p : CellValue × CellValue) : List (String × List (String × Nat)) :=
  let code := codeCellStr p.1
  let name := codeCellStr p.2
  if code ≠ "" ∧ name ≠ "" then bumpNested acc code name else acc

/-- One code domain of `build_master_maps` (`src/HRTool.py:502-545`):
`rows` is the concatenated list of the domain's (code cell, name cell)
pairs over all records of sheets carrying both columns — sheets lacking
either column contribute no pairs.  The final comprehension keeps, for
each code, the most frequent name (Python `max`: first maximum wins). -/
def build_master_maps_domain (rows : List (CellValue × CellValue)) :
    List (String × String) :=
  (rows.foldl masterStep []).filterMap
    (fun ci => (pickMax ci.2).map (fun best => (ci.1, best.1)))

/-- The display names co-occurring with `code`, in corpus order. -/
def codeOccNames (rows : List (CellValue × CellValue)) (code : String) :
    List String :=
  rows.filterMap
    (fun p =>
      if codeCellStr p.1 = code ∧ codeCellStr p.2 ≠ "" then
        some (codeCellStr p.2)
      else none)

theorem alookup_bumpNested_self (m : List (String × List (String × Nat)))
    (code name : String) :
    alookup code (bumpNested m code name) =
      some (bumpCount ((alookup code m).getD []) name) := by
  induction m with
  | nil => simp [bumpNested, alookup, bumpCount]
  | cons ci rest ih =>
    obtain ⟨c, inner⟩ := ci
    by_cases hc : c = code
    · subst hc
      simp [bumpNested, alookup]
    · simp [bumpNested, alookup, hc, ih]

theorem alookup_bumpNested_ne (m : List (String × List (String × Nat)))
    (code name c' : String) (h : c' ≠ code) :
    alookup c' (bumpNested m code name) = alookup c' m := by
  have h' : code ≠ c' := Ne.symm h
  induction m with
  | nil =>
    simp [bumpNested, alookup, h']
  | cons ci rest ih =>
    obtain ⟨c, inner⟩ := ci
    by_cases hc : c = code
    · subst hc
      simp [bumpNested, alookup, h']
    · simp [bumpNested, alookup, hc, ih]

/-- Folding a batch of names into an optional inner counter. -/
def optBumpAll (o : Option (List (String × Nat))) (ks : List String) :
    Option (List (String × Nat)) :=
  match o with
  | some inner => some (ks.foldl bumpCount inner)
  | none =>
    match ks with
    | [] => none
    | _ => some (ks.foldl bumpCount [])

theorem optBumpAll_nil (o : Option (List (String × Nat))) :
    optBumpAll o [] = o := by
  cases o <;> rfl

theorem alookup_foldl_masterStep (code : String) (hcode : code ≠ "") :
    ∀ (rows : List (CellValue × CellValue))
      (acc : List (String × List (String × Nat))),
      alookup code (rows.foldl masterStep acc)
        = optBumpAll (alookup code acc) (codeOccNames rows code)
  | [], acc => by
    simp [codeOccNames, optBumpAll_nil]
  | p :: rows, acc => by
    have ih := alookup_foldl_masterStep code hcode rows
    by_cases h1 : codeCellStr p.1 = code ∧ codeCellStr p.2 ≠ ""
    · have hocc : codeOccNames (p :: rows) code
          = codeCellStr p.2 :: codeOccNames rows code := by
        unfold codeOccNames
        rw [List.filterMap_cons]
        simp [h1]
      have hstep : masterStep acc p = bumpNested acc code (codeCellStr p.2) := by
        unfold masterStep
        rw [if_pos ⟨h1.1 ▸ hcode, h1.2⟩, h1.1]
      rw [List.foldl_cons, hstep, ih, alookup_bumpNested_self, hocc]
      cases halo : alookup code acc with
      | none => simp [optBumpAll]
      | some inner => simp [optBumpAll]
    · have hocc : codeOccNames (p :: rows) code = codeOccNames rows code := by
        unfold codeOccNames
        rw [List.filterMap_cons, if_neg h1]
      have hstep : masterStep acc p = acc ∨
          (codeCellStr p.1 ≠ code ∧
            masterStep acc p =
              bumpNested acc (codeCellStr p.1) (codeCellStr p.2)) := by
        unfold masterStep
        by_cases h2 : codeCellStr p.1 ≠ "" ∧ codeCellStr p.2 ≠ ""
        · refine Or.inr ⟨?_, by rw [if_pos h2]⟩
          intro he
          exact h1 ⟨he, h2.2⟩
        · exact Or.inl (by rw [if_neg h2])
      rcases hstep with h | ⟨hne, h⟩
      · rw [List.foldl_cons, h, ih, hocc]
      · rw [List.foldl_cons, h, ih,
          alookup_bumpNested_ne acc _ _ code (fun he => hne he.symm), hocc]

theorem bumpCount_ne_nil (l : List (String × Nat)) (k : String) :
    bumpCount l k ≠ [] := by
  match l with
  | [] => simp [bumpCount]
  | (k', c) :: rest =>
    simp only [bumpCount]
    split <;> simp

theorem pickMax_of_ne_nil (l : List (String × Nat)) (h : l ≠ []) :
    ∃ p, pickMax l = some p := by
  match l with
  | [] => exact absurd rfl h
  | b :: rest => exact ⟨rest.foldl pickStep b, rfl⟩

theorem bumpNested_inners_ne (m : List (String × List (String × Nat)))
    (code name : String) (h : ∀ ci ∈ m, ci.2 ≠ []) :
    ∀ ci ∈ bumpNested m code name, ci.2 ≠ [] := by
  induction m with
  | nil =>
    intro ci hci
    simp only [bumpNested, List.mem_singleton] at hci
    subst hci
    simp
  | cons hd rest ih =>
    obtain ⟨c, inner⟩ := hd
    intro ci hci
    simp only [bumpNested] at hci
    split at hci
    · rcases List.mem_cons.mp hci with h' | h'
      · subst h'
        exact bumpCount_ne_nil inner name
      · exact h ci (List.mem_cons.mpr (Or.inr h'))
    · rcases List.mem_cons.mp hci with h' | h'
      · subst h'
        exact h (c, inner) (by simp)
      · exact ih (fun x hx => h x (List.mem_cons.mpr (Or.inr hx))) ci h'

theorem foldl_masterStep_inners_ne :
    ∀ (rows : List (CellValue × CellValue))
      (acc : List (String × List (String × Nat))),
      (∀ ci ∈ acc, ci.2 ≠ []) →
      ∀ ci ∈ rows.foldl masterStep acc, ci.2 ≠ []
  | [], _, hacc => hacc
  | p :: rows, acc, hacc => by
    refine foldl_masterStep_inners_ne rows (masterStep acc p) ?_
    intro ci hci
    by_cases hcond : codeCellStr p.1 ≠ "" ∧ codeCellStr p.2 ≠ ""
    · rw [show masterStep acc p
          = bumpNested acc (codeCellStr p.1) (codeCellStr p.2) from by
        unfold masterStep
        rw [if_pos hcond]] at hci
      exact bumpNested_inners_ne acc _ _ hacc ci hci
    · rw [show masterStep acc p = acc from by
        unfold masterStep
        rw [if_neg hcond]] at hci
      exact hacc ci hci

theorem alookup_filterMap_pickMax
    (m : List (String × List (String × Nat))) (code : String)
    (hne : ∀ ci ∈ m, ci.2 ≠ []) :
    alookup code
        (m.filterMap
          (fun ci => (pickMax ci.2).map (fun best => (ci.1, best.1))))
      = (alookup code m).bind (fun inner => (pickMax inner).map Prod.fst) := by
  induction m with
  | nil => rfl
  | cons ci rest ih =>
    obtain ⟨c, inner⟩ := ci
    obtain ⟨b, hb⟩ := pickMax_of_ne_nil inner (hne (c, inner) (by simp))
    rw [List.filterMap_cons]
    by_cases hc : c = code
    · subst hc
      simp [alookup, hb]
    · simp [alookup, hc, hb, ih (fun x hx => hne x (by simp [hx]))]

theorem optBumpAll_none (ks : List String) (h : ks ≠ []) :
    optBumpAll none ks = some (countsOf ks) := by
  unfold optBumpAll countsOf
  match ks with
  | [] => exact absurd rfl h
  | x :: xs => rfl

theorem foldl_masterStep_all_invalid :
    ∀ rows : List (CellValue × CellValue),
      (∀ p ∈ rows, codeCellStr p.1 = "" ∨ codeCellStr p.2 = "") →
      rows.foldl masterStep [] = []
  | [], _ => rfl
  | p :: rows, h => by
    have hp : masterStep [] p = [] := by
      unfold masterStep
      rw [if_neg]
      rcases h p (by simp) with hc | hc
      · exact fun hx => hx.1 hc
      · exact fun hx => hx.2 hc
    rw [List.foldl_cons, hp]
    exact foldl_masterStep_all_invalid rows (fun q hq => h q (by simp [hq]))

theorem mem_codeOccNames_ne_empty (rows : List (CellValue × CellValue))
    (code m : String) (h : m ∈ codeOccNames rows code) : m ≠ "" := by
  unfold codeOccNames at h
  obtain ⟨p, hp, hif⟩ := List.mem_filterMap.mp h
  by_cases hc : codeCellStr p.1 = code ∧ codeCellStr p.2 ≠ ""
  · rw [if_pos hc] at hif
    exact Option.some.inj hif ▸ hc.2
  · rw [if_neg hc] at hif
    exact absurd hif (by simp)

theorem count_codeOccNames (rows : List (CellValue × CellValue))
    (code m : String) (hm : m ≠ "") :
    (codeOccNames rows code).count m =
      rows.countP
        (fun p => decide (codeCellStr p.1 = code ∧ codeCellStr p.2 = m)) := by
  induction rows with
  | nil => rfl
  | cons p rows ih =>
    simp only [codeOccNames, List.filterMap_cons, List.countP_cons] at ih ⊢
    by_cases h1 : codeCellStr p.1 = code
    · by_cases h2 : codeCellStr p.2 = m
      · rw [if_pos ⟨h1, h2 ▸ hm⟩, List.count_cons]
        simp [ih, h1, h2]
      · by_cases h3 : codeCellStr p.2 ≠ ""
        · rw [if_pos ⟨h1, h3⟩, List.count_cons]
          simp [ih, h2]
        · rw [if_neg (fun hc => h3 hc.2)]
          simp [ih, h2]
    · rw [if_neg (fun hc => h1 hc.1)]
      simp [ih, h1]

/-- C6: for each code domain independently, every code that co-occurs
with at least one non-empty display name maps to the name with the
highest observation count over all records carrying both (ties broken by
first-seen order); codes with no pair are absent, and a domain with no
pair anywhere yields the empty map. -/
theorem c6_build_master_maps_majority (rows : List (CellValue × CellValue))
    (code : String) (hcode : code ≠ "") :
    (codeOccNames rows code ≠ [] →
      ∃ nm, alookup code (build_master_maps_domain rows) = some nm ∧
        nm ∈ codeOccNames rows code ∧
        (∀ m, m ≠ "" →
          rows.countP
              (fun p => decide (codeCellStr p.1 = code ∧ codeCellStr p.2 = m))
            ≤ rows.countP
              (fun p => decide (codeCellStr p.1 = code ∧ codeCellStr p.2 = nm))) ∧
        ∀ m ∈ codeOccNames rows code,
          (codeOccNames rows code).count m = (codeOccNames rows code).count nm →
            (codeOccNames rows code).indexOf nm ≤
              (codeOccNames rows code).indexOf m)
    ∧ (codeOccNames rows code = [] →
        alookup code (build_master_maps_domain rows) = none)
    ∧ ((∀ p ∈ rows, codeCellStr p.1 = "" ∨ codeCellStr p.2 = "") →
        build_master_maps_domain rows = []) := by
  have hfold := alookup_foldl_masterStep code hcode rows []
  have hinner := foldl_masterStep_inners_ne rows [] (by simp)
  have hlift : alookup code (build_master_maps_domain rows)
      = (alookup code (rows.foldl masterStep [])).bind
          (fun inner => (pickMax inner).map Prod.fst) :=
    alookup_filterMap_pickMax _ code hinner
  refine ⟨?_, ?_, ?_⟩
  · intro hocc
    have hsome : alookup code (rows.foldl masterStep [])
        = some (countsOf (codeOccNames rows code)) := by
      rw [hfold]
      exact optBumpAll_none _ hocc
    obtain ⟨⟨b, c⟩, hpick⟩ := pickMax_countsOf_isSome _ hocc
    obtain ⟨hbmem, hbc, hmax, htie⟩ := pickMax_countsOf_spec _ _ _ hpick
    have hbne : b ≠ "" := mem_codeOccNames_ne_empty rows code b hbmem
    refine ⟨b, ?_, hbmem, ?_, ?_⟩
    · rw [hlift, hsome]
      simp [hpick]
    · intro m hm
      rw [← count_codeOccNames rows code m hm,
        ← count_codeOccNames rows code b hbne]
      by_cases hmem : m ∈ codeOccNames rows code
      · have := hmax m hmem
        omega
      · rw [List.count_eq_zero.mpr hmem]
        exact Nat.zero_le _
    · intro m hmem hcnt
      exact htie m hmem (by omega)
  · intro hocc
    rw [hlift, hfold, hocc, optBumpAll_nil]
    rfl
  · intro hall
    unfold build_master_maps_domain
    rw [foldl_masterStep_all_invalid rows hall]
    rfl

/-- Witness for C6: code `10` is seen with `Sales` twice and `SALES-OLD`
once, so the map sends it to the majority name. -/
theorem c6_build_master_maps_majority_witness :
    ∃ nm,
      alookup "10" (build_master_maps_domain
          [(.vstr "10", .vstr "Sales"), (.vstr "10", .vstr "SALES-OLD"),
           (.vstr "10", .vstr "Sales")]) = some nm ∧
      nm ∈ codeOccNames
          [(.vstr "10", .vstr "Sales"), (.vstr "10", .vstr "SALES-OLD"),
           (.vstr "10", .vstr "Sales")] "10" ∧
      (∀ m, m ≠ "" →
        List.countP
            (fun p => decide (codeCellStr p.1 = "10" ∧ codeCellStr p.2 = m))
            [(.vstr "10", .vstr "Sales"), (.vstr "10", .vstr "SALES-OLD"),
             (.vstr "10", .vstr "Sales")]
          ≤ List.countP
            (fun p => decide (codeCellStr p.1 = "10" ∧ codeCellStr p.2 = nm))
            [(.vstr "10", .vstr "Sales"), (.vstr "10", .vstr "SALES-OLD"),
             (.vstr "10", .vstr "Sales")]) ∧
      ∀ m ∈ codeOccNames
          [(.vstr "10", .vstr "Sales"), (.vstr "10", .vstr "SALES-OLD"),
           (.vstr "10", .vstr "Sales")] "10",
        (codeOccNames
            [(.vstr "10", .vstr "Sales"), (.vstr "10", .vstr "SALES-OLD"),
             (.vstr "10", .vstr "Sales")] "10").count m =
          (codeOccNames
            [(.vstr "10", .vstr "Sales"), (.vstr "10", .vstr "SALES-OLD"),
             (.vstr "10", .vstr "Sales")] "10").count nm →
          (codeOccNames
            [(.vstr "10", .vstr "Sales"), (.vstr "10", .vstr "SALES-OLD"),
             (.vstr "10", .vstr "Sales")] "10").indexOf nm ≤
            (codeOccNames
              [(.vstr "10", .vstr "Sales"), (.vstr "10", .vstr "SALES-OLD"),
               (.vstr "10", .vstr "Sales")] "10").indexOf m :=
  (c6_build_master_maps_majority
    [(.vstr "10", .vstr "Sales"), (.vstr "10", .vstr "SALES-OLD"),
     (.vstr "10", .vstr "Sales")] "10" (by decide)).1 (by decide)

/-! ## Column Normalizer -/

/-- `COLUMN_SYNONYMS` (`src/HRTool.py:45-68`), in declaration order. -/
def COLUMN_SYNONYMS : List (String × List String) :=
  [
   ("社員番号",
    ["社員番号", "社員No", "社員NO", "社員ＮＯ", "社員ｎｏ", "社員no", "emp_no", "従業員番号", "職員番号", "社員コード", "社員ｺｰﾄﾞ", "Employee No", "EMP_NO", "社員№"]),
   ("氏名",
    ["氏名", "名前", "社員名", "name", "Name", "NAME", "氏　名", "社員氏名", "職員名", "姓名", "フルネーム", "社員氏名"]),
   ("フリガナ",
    ["フリガナ", "カナ", "フリガナ氏名", "ふりがな", "フリガナ名", "かな", "カナ氏名", "フリガナ名前", "ヨミガナ", "よみがな"]),
   ("生年月日",
    ["生年月日", "生年月日（西暦）", "誕生日", "生年月日(西暦)", "生まれ", "年月日", "生年月日 (西暦)", "birth_date", "BIRTH_DATE", "誕生年月日"]),
   ("性別",
    ["性別", "男女", "性", "gender", "Gender", "GENDER", "性別区分"]),
   ("入社年月日",
    ["入社年月日", "入社日", "入社年月日（西暦）", "入社年月日(西暦)", "入社", "採用日", "入社年月", "入社年月日 (西暦)", "hire_date", "入社年月日 ", "採用年月日", "入社　 \n年月"]),
   ("所属コード",
    ["所属コード", "部署コード", "dept_code", "所属ｺｰﾄﾞ", "部署ｺｰﾄﾞ", "組織コード", "所属CD", "部署CD", "DEPT_CODE", "部門コード"]),
   ("所属名",
    ["所属名", "部署名", "所属", "部署", "組織名", "所属部署", "配属先", "dept_name", "DEPT_NAME", "部門名称", "部門"]),
   ("資格コード",
    ["資格コード", "grade_code", "資格ｺｰﾄﾞ", "等級コード", "等級", "資格CD", "GRADE_CODE"]),
   ("資格名",
    ["等級名", "職能資格", "grade_name", "GRADE_NAME"]),
   ("職位コード",
    ["職位コード", "position_code", "職位ｺｰﾄﾞ", "役職コード", "職位CD", "POSITION_CODE"]),
   ("職位名",
    ["職位名", "職位", "役職名", "役職", "position_name", "POSITION_NAME"]),
   ("健保コード",
    ["健保コード", "health_code", "健保ｺｰﾄﾞ", "保険コード", "健保CD", "HEALTH_CODE"]),
   ("NO",
    ["NO", "No", "番号", "no", "№", "ＮＯ", "No.", "NUMBER"]),
   ("雇用形態",
    ["雇用形態", "雇用区分", "雇用", "勤務形態", "就業形態", "雇用形態区分", "employment_type", "EMPLOYMENT_TYPE", "従業員区分", "社員\n区分", "資格名", "資格"]),
   ("退職年月日",
    ["退職年月日", "退職日", "退職年月日（西暦）", "退職年月日(西暦)", "退職", "離職日", "退職年月日 (西暦)", "retire_date", "RETIRE_DATE", "退社日"]),
   ("学校名",
    ["学校名", "出身校", "最終学歴校", "学校", "出身学校"]),
   ("学科名",
    ["学科名", "学部学科", "専攻", "学科", "専攻名"]),
   ("勤務地",
    ["勤務地", "勤務場所", "事業所", "勤務先", "配属先", "work_location", "WORK_LOCATION", "事業所名称"]),
   ("本部",
    ["本部", "本部名", "本部組織"]),
   ("所属部",
    ["所属部", "部", "部名", "部署"]),
   ("昇給日",
    ["昇給日", "昇給年月日", "昇給月日", "昇給日付"])
  ]

/-- The synonym scan of `normalize_column_names`
(`src/HRTool.py:320-324`): the first canonical field whose synonym list
contains the label wins. -/
def lookupCanonical (tbl : List (String × List String)) (lbl : String) :
    Option String :=
  match tbl with
  | [] => none
  | (canon, syns) :: rest =>
    if lbl ∈ syns then some canon else lookupCanonical rest lbl

/-- Counterexample to C5 as stated: `配属先` is listed in the synonym set
of `勤務地`, yet normalizing it yields `所属名` (whose set also lists it
and which comes first in declaration order), so the synonym sets overlap
and the lookup diverts `勤務地`'s synonym to a different field. -/
theorem c5_counterexample_overlapping_synonyms :
    "配属先" ∈ (alookup "勤務地" COLUMN_SYNONYMS).getD []
    ∧ lookupCanonical COLUMN_SYNONYMS "配属先" = some "所属名"
    ∧ ("所属名" : String) ≠ "勤務地" := by
  decide

theorem lookupCanonical_of_unshared :
    ∀ (tbl : List (String × List String)) (canon lbl : String)
      (syns : List String), (canon, syns) ∈ tbl → lbl ∈ syns →
      (∀ p ∈ tbl, p.1 ≠ canon → lbl ∉ p.2) → (tbl.map Prod.fst).Nodup →
      lookupCanonical tbl lbl = some canon
  | [], canon, lbl, syns, hmem, _, _, _ => by simp at hmem
  | (c, ss) :: rest, canon, lbl, syns, hmem, hlbl, huniq, hkeys => by
    rcases List.mem_cons.mp hmem with h | h
    · injection h with h1 h2
      unfold lookupCanonical
      rw [if_pos (h2 ▸ hlbl), h1]
    · have hcanonr : canon ∈ rest.map Prod.fst := by
        have := List.mem_map_of_mem Prod.fst h
        simpa using this
      have hcne : c ≠ canon := by
        intro he
        exact (List.nodup_cons.mp hkeys).1 (he ▸ hcanonr)
      have hnot : lbl ∉ ss := huniq (c, ss) (by simp) hcne
      unfold lookupCanonical
      rw [if_neg hnot]
      exact lookupCanonical_of_unshared rest canon lbl syns h hlbl
        (fun p hp hne => huniq p (by simp [hp]) hne)
        (List.nodup_cons.mp hkeys).2

/-- C5 as amended: for every canonical field and every raw label in its
synonym set that is not also listed under a different canonical field,
the Column Normalizer's lookup yields that canonical field; the synonym
sets do overlap (e.g. `配属先`, `部署`), and such shared labels resolve
deterministically to the first matching field in declaration order. -/
theorem c5_synonym_lookup_resolves_unshared (canon lbl : String)
    (syns : List String) (hmem : (canon, syns) ∈ COLUMN_SYNONYMS)
    (hlbl : lbl ∈ syns)
    (huniq : ∀ p ∈ COLUMN_SYNONYMS, p.1 ≠ canon → lbl ∉ p.2) :
    lookupCanonical COLUMN_SYNONYMS lbl = some canon :=
  lookupCanonical_of_unshared COLUMN_SYNONYMS canon lbl syns hmem hlbl huniq
    (by decide)

/-- Witness for amended C5: the label `勤務場所` is listed only under
`勤務地` and resolves to it. -/
theorem c5_synonym_lookup_resolves_unshared_witness :
    lookupCanonical COLUMN_SYNONYMS "勤務場所" = some "勤務地" :=
  c5_synonym_lookup_resolves_unshared "勤務地" "勤務場所"
    ((alookup "勤務地" COLUMN_SYNONYMS).getD [])
    (by decide) (by decide) (by decide)

/-- One header cell of `normalize_column_names`
(`src/HRTool.py:316-330`): `str(col).strip()` when not NaN (else `""`),
matched against the synonym table; unmatched labels are kept verbatim,
blank ones become `col_<index>` (`idx` is the running output length,
which equals the position). -/
def mapColName (idx : Nat) (v : CellValue) : String :=
  let colStr :=
    match v with
    | .na => ""
    | v => strTrim (cellToStr v)
  match lookupCanonical COLUMN_SYNONYMS colStr with
  | some canon => canon
  | none => if colStr ≠ "" then colStr else "col_" ++ toString idx

def mapNamesAux : Nat → List CellValue → List String
  | _, [] => []
  | i, v :: rest => mapColName i v :: mapNamesAux (i + 1) rest

/-- The mapping loop of `normalize_column_names`. -/
def mapNames (cols : List CellValue) : List String := mapNamesAux 0 cols

/-- `seen[k] = v` on the duplicate-resolution dictionary. -/
def setSeen : List (String × Nat) → String → Nat → List (String × Nat)
  | [], k, v => [(k, v)]
  | (k', v') :: rest, k, v =>
    if k' = k then (k, v) :: rest else (k', v') :: setSeen rest k v

/-- The duplicate-resolution loop of `normalize_column_names`
(`src/HRTool.py:333-341`): a fresh name enters `seen` at 0 and is kept
bare; a repeated name bumps its counter to `k + 1` and gains `_<k+1>`. -/
def uniquifyAux : List String → List (String × Nat) → List String
  | [], _ => []
  | n :: rest, seen =>
    match alookup n seen with
    | some k =>
      (n ++ "_" ++ toString (k + 1)) :: uniquifyAux rest (setSeen seen n (k + 1))
    | none => n :: uniquifyAux rest ((n, 0) :: seen)

def uniquify (l : List String) : List String := uniquifyAux l []

/-- `normalize_column_names` (`src/HRTool.py:312-343`). -/
def normalize_column_names (cols : List CellValue) : List String :=
  uniquify (mapNames cols)

/-- Closed form of the duplicate-suffix rule: given the names already
processed, the first occurrence stays bare and the `k`-th repetition
gains `_k`. -/
def suffixedName (pre : List String) (n : String) : String :=
  if pre.count n = 0 then n else n ++ "_" ++ toString (pre.count n)

/-- Reference rendering of the duplicate-resolution loop in terms of
occurrence counts over the processed prefix. -/
def uniquifySpec (pre : List String) : List String → List String
  | [] => []
  | n :: rest => suffixedName pre n :: uniquifySpec (pre ++ [n]) rest

theorem alookup_setSeen_self (seen : List (String × Nat)) (k : String)
    (v : Nat) : alookup k (setSeen seen k v) = some v := by
  induction seen with
  | nil => simp [setSeen, alookup]
  | cons p rest ih =>
    obtain ⟨k', v'⟩ := p
    by_cases h : k' = k
    · subst h
      simp [setSeen, alookup]
    · simp [setSeen, alookup, h, ih]

theorem alookup_setSeen_ne (seen : List (String × Nat)) (k : String)
    (v : Nat) (m : String) (h : m ≠ k) :
    alookup m (setSeen seen k v) = alookup m seen := by
  have h' : k ≠ m := Ne.symm h
  induction seen with
  | nil => simp [setSeen, alookup, h']
  | cons p rest ih =>
    obtain ⟨k', v'⟩ := p
    by_cases hk : k' = k
    · subst hk
      simp [setSeen, alookup, h']
    · simp [setSeen, alookup, hk, ih]

theorem uniquifyAux_eq_spec :
    ∀ (l : List String) (seen : List (String × Nat)) (pre : List String),
      (∀ m : String, alookup m seen =
        if pre.count m = 0 then none else some (pre.count m - 1)) →
      uniquifyAux l seen = uniquifySpec pre l
  | [], _, _, _ => rfl
  | n :: rest, seen, pre, hinv => by
    have hn := hinv n
    by_cases h0 : pre.count n = 0
    · rw [if_pos h0] at hn
      unfold uniquifyAux uniquifySpec
      rw [hn]
      unfold suffixedName
      rw [if_pos h0]
      show n :: uniquifyAux rest ((n, 0) :: seen)
          = n :: uniquifySpec (pre ++ [n]) rest
      congr 1
      apply uniquifyAux_eq_spec rest ((n, 0) :: seen) (pre ++ [n])
      intro m
      by_cases hm : m = n
      · subst hm
        have hc : (pre ++ [m]).count m = 1 := by
          rw [List.count_append]
          simp [h0]
        rw [hc]
        simp [alookup]
      · have hc : (pre ++ [n]).count m = pre.count m := by
          rw [List.count_append]
          simp [hm]
        rw [hc]
        simp only [alookup]
        rw [if_neg (fun he => hm he.symm)]
        exact hinv m
    · rw [if_neg h0] at hn
      unfold uniquifyAux uniquifySpec
      rw [hn]
      unfold suffixedName
      rw [if_neg h0]
      have harith : pre.count n - 1 + 1 = pre.count n := by omega
      show (n ++ "_" ++ toString (pre.count n - 1 + 1))
            :: uniquifyAux rest (setSeen seen n (pre.count n - 1 + 1))
          = (n ++ "_" ++ toString (pre.count n))
            :: uniquifySpec (pre ++ [n]) rest
      rw [harith]
      congr 1
      apply uniquifyAux_eq_spec rest (setSeen seen n (pre.count n))
        (pre ++ [n])
      intro m
      by_cases hm : m = n
      · subst hm
        rw [alookup_setSeen_self]
        have hc : (pre ++ [m]).count m = pre.count m + 1 := by
          rw [List.count_append]
          simp
        rw [hc, if_neg (by omega)]
        exact congrArg some (by omega)
      · rw [alookup_setSeen_ne seen n _ m hm]
        have hc : (pre ++ [n]).count m = pre.count m := by
          rw [List.count_append]
          simp [hm]
        rw [hc]
        exact hinv m

theorem uniquify_eq_spec (l : List String) : uniquify l = uniquifySpec [] l :=
  uniquifyAux_eq_spec l [] [] (fun m => by simp [alookup])

theorem uniquifySpec_length :
    ∀ (pre l : List String), (uniquifySpec pre l).length = l.length
  | _, [] => rfl
  | pre, n :: rest => by
    unfold uniquifySpec
    rw [List.length_cons, List.length_cons, uniquifySpec_length]

theorem mapNamesAux_length :
    ∀ (i : Nat) (cols : List CellValue),
      (mapNamesAux i cols).length = cols.length
  | _, [] => rfl
  | i, v :: rest => by
    unfold mapNamesAux
    rw [List.length_cons, List.length_cons, mapNamesAux_length]

theorem normalize_column_names_length (cols : List CellValue) :
    (normalize_column_names cols).length = cols.length := by
  unfold normalize_column_names mapNames
  rw [uniquify_eq_spec, uniquifySpec_length, mapNamesAux_length]

theorem uniquifySpec_get :
    ∀ (pre l : List String) (i : Nat) (h : i < l.length),
      (uniquifySpec pre l).get ⟨i, by rw [uniquifySpec_length]; exact h⟩
        = suffixedName (pre ++ l.take i) (l.get ⟨i, h⟩)
  | pre, n :: rest, 0, h => by
    simp [uniquifySpec]
  | pre, n :: rest, i + 1, h => by
    have hi : i < rest.length := by
      rw [List.length_cons] at h
      omega
    have := uniquifySpec_get (pre ++ [n]) rest i hi
    simp only [uniquifySpec, List.get_cons_succ, List.take_succ_cons,
      List.get_cons_succ] at this ⊢
    rw [this, List.append_assoc]
    rfl

/-! Decimal numerals: `toString` on `Nat` produces no underscore and is
injective; this underpins distinctness of the suffixed column names. -/

theorem toDigitsCore_shift :
    ∀ (fuel n : Nat) (ds : List Char),
      Nat.toDigitsCore 10 fuel n ds = Nat.toDigitsCore 10 fuel n [] ++ ds := by
  intro fuel
  induction fuel with
  | zero => intro n ds; rfl
  | succ f ih =>
    intro n ds
    simp only [Nat.toDigitsCore]
    by_cases h : n / 10 = 0
    · rw [if_pos h, if_pos h]
      rfl
    · rw [if_neg h, if_neg h,
        ih (n / 10) (Nat.digitChar (n % 10) :: ds),
        ih (n / 10) [Nat.digitChar (n % 10)],
        List.append_assoc]
      rfl

theorem toDigitsCore_fuel :
    ∀ (f1 f2 n : Nat), n < f1 → n < f2 →
      Nat.toDigitsCore 10 f1 n [] = Nat.toDigitsCore 10 f2 n [] := by
  intro f1
  induction f1 with
  | zero => intro f2 n h1; omega
  | succ f ih =>
    intro f2 n h1 h2
    match f2, h2 with
    | g + 1, h2 =>
      simp only [Nat.toDigitsCore]
      by_cases h : n / 10 = 0
      · rw [if_pos h, if_pos h]
      · rw [if_neg h, if_neg h,
          toDigitsCore_shift f (n / 10) [Nat.digitChar (n % 10)],
          toDigitsCore_shift g (n / 10) [Nat.digitChar (n % 10)]]
        have hlt : n / 10 < n := Nat.div_lt_self (by omega) (by omega)
        rw [ih g (n / 10) (by omega) (by omega)]

/-- The decimal digits of `n`, most significant first. -/
def digs (n : Nat) : List Char := Nat.toDigits 10 n

theorem digs_small (n : Nat) (h : n < 10) : digs n = [Nat.digitChar n] := by
  unfold digs Nat.toDigits
  simp only [Nat.toDigitsCore]
  rw [if_pos (Nat.div_eq_of_lt h), Nat.mod_eq_of_lt h]

theorem digs_step (n : Nat) (h : 10 ≤ n) :
    digs n = digs (n / 10) ++ [Nat.digitChar (n % 10)] := by
  have hne : ¬ n / 10 = 0 := by
    intro hz
    have := Nat.div_eq_of_lt (show n < 10 by
      by_contra hh
      push_neg at hh
      have := Nat.le_div_iff_mul_le (by omega : 0 < 10) |>.mpr
        (by omega : 1 * 10 ≤ n)
      omega)
    omega
  unfold digs Nat.toDigits
  simp only [Nat.toDigitsCore]
  rw [if_neg hne, toDigitsCore_shift n (n / 10) [Nat.digitChar (n % 10)]]
  congr 1
  exact toDigitsCore_fuel n (n / 10 + 1) (n / 10)
    (lt_of_lt_of_le (Nat.div_lt_self (by omega) (by omega)) (by omega))
    (by omega)

theorem digs_ne_nil (n : Nat) : digs n ≠ [] := by
  by_cases h : n < 10
  · rw [digs_small n h]
    simp
  · rw [digs_step n (by omega)]
    simp

theorem digitChar_ne_underscore (k : Nat) : Nat.digitChar k ≠ '_' := by
  match k with
  | 0 | 1 | 2 | 3 | 4 | 5 | 6 | 7 | 8 | 9 | 10 | 11 | 12 | 13 | 14 | 15 =>
    decide
  | n + 16 =>
    show Nat.digitChar (n + 16) ≠ '_'
    unfold Nat.digitChar
    repeat rw [if_neg (by omega)]
    decide

theorem digitChar_inj_lt (m n : Nat) (hm : m < 10) (hn : n < 10)
    (h : Nat.digitChar m = Nat.digitChar n) : m = n := by
  interval_cases m <;> interval_cases n <;> revert h <;> decide

theorem digs_no_underscore (n : Nat) : ∀ c ∈ digs n, c ≠ '_' := by
  induction n using Nat.strong_induction_on with
  | _ n ih =>
    by_cases h : n < 10
    · rw [digs_small n h]
      intro c hc
      rw [List.mem_singleton] at hc
      exact hc ▸ digitChar_ne_underscore n
    · rw [digs_step n (by omega)]
      intro c hc
      rcases List.mem_append.mp hc with h1 | h1
      · exact ih (n / 10) (Nat.div_lt_self (by omega) (by omega)) c h1
      · rw [List.mem_singleton] at h1
        exact h1 ▸ digitChar_ne_underscore (n % 10)

theorem append_singleton_inj {l1 l2 : List Char} {a b : Char}
    (h : l1 ++ [a] = l2 ++ [b]) : l1 = l2 ∧ a = b := by
  have h1 := congrArg List.dropLast h
  have h2 := congrArg List.getLast? h
  rw [List.dropLast_concat, List.dropLast_concat] at h1
  rw [List.getLast?_concat, List.getLast?_concat] at h2
  exact ⟨h1, Option.some.inj h2⟩

theorem digs_inj (m : Nat) : ∀ n, digs m = digs n → m = n := by
  induction m using Nat.strong_induction_on with
  | _ m ih =>
    intro n h
    by_cases hm : m < 10 <;> by_cases hn : n < 10
    · rw [digs_small m hm, digs_small n hn] at h
      have := List.head_eq_of_cons_eq h
      exact digitChar_inj_lt m n hm hn this
    · rw [digs_small m hm, digs_step n (by omega)] at h
      have hlen := congrArg List.length h
      simp only [List.length_singleton, List.length_append] at hlen
      have h0 : (digs (n / 10)).length = 0 := by omega
      exact absurd (List.length_eq_zero.mp h0) (digs_ne_nil (n / 10))
    · rw [digs_step m (by omega), digs_small n hn] at h
      have hlen := congrArg List.length h
      simp only [List.length_singleton, List.length_append] at hlen
      have h0 : (digs (m / 10)).length = 0 := by omega
      exact absurd (List.length_eq_zero.mp h0) (digs_ne_nil (m / 10))
    · rw [digs_step m (by omega), digs_step n (by omega)] at h
      obtain ⟨h1, h2⟩ := append_singleton_inj h
      have hdiv : m / 10 = n / 10 :=
        ih (m / 10) (Nat.div_lt_self (by omega) (by omega)) (n / 10) h1
      have hmod : m % 10 = n % 10 :=
        digitChar_inj_lt _ _ (Nat.mod_lt _ (by omega)) (Nat.mod_lt _ (by omega))
          h2
      omega

theorem toString_nat_data (n : Nat) : (toString n).data = digs n := rfl

theorem toString_nat_inj (m n : Nat) (h : toString m = toString n) : m = n := by
  apply digs_inj m n
  rw [← toString_nat_data, ← toString_nat_data, h]

theorem toString_nat_no_underscore (n : Nat) :
    ∀ c ∈ (toString n).data, c ≠ '_' := by
  rw [toString_nat_data]
  exact digs_no_underscore n

theorem data_append (a b : String) : (a ++ b).data = a.data ++ b.data := by
  cases a
  cases b
  rfl

theorem data_inj {a b : String} (h : a.data = b.data) : a = b := by
  cases a
  cases b
  exact congrArg String.mk h

theorem sep_append_inj :
    ∀ (u n1 v n2 : List Char),
      (∀ c ∈ n1, c ≠ '_') → (∀ c ∈ n2, c ≠ '_') →
      u ++ '_' :: n1 = v ++ '_' :: n2 → u = v ∧ n1 = n2
  | [], n1, [], n2, _, _, h => ⟨rfl, List.tail_eq_of_cons_eq h⟩
  | [], n1, c :: v, n2, h1, h2, h => by
    exfalso
    have hc := List.head_eq_of_cons_eq h
    have ht := List.tail_eq_of_cons_eq h
    exact h1 '_' (by rw [ht]; simp) rfl
  | c :: u, n1, [], n2, h1, h2, h => by
    exfalso
    have ht := List.tail_eq_of_cons_eq h
    exact h2 '_' (by rw [← ht]; simp) rfl
  | c :: u, n1, d :: v, n2, h1, h2, h => by
    have hc := List.head_eq_of_cons_eq h
    have ht := List.tail_eq_of_cons_eq h
    obtain ⟨hu, hn⟩ := sep_append_inj u n1 v n2 h1 h2 ht
    exact ⟨by rw [hc, hu], hn⟩

/-- Two underscore-suffixed names coincide only when both the base name
and the numeral agree. -/
theorem suffix_append_inj (a b : String) (m n : Nat)
    (h : a ++ "_" ++ toString m = b ++ "_" ++ toString n) : a = b ∧ m = n := by
  have hd := congrArg String.data h
  rw [data_append, data_append, data_append, data_append] at hd
  rw [List.append_assoc, List.append_assoc] at hd
  have hsep := sep_append_inj a.data (toString m).data b.data (toString n).data
    (toString_nat_no_underscore m) (toString_nat_no_underscore n) hd
  exact ⟨data_inj hsep.1, toString_nat_inj m n (data_inj hsep.2)⟩

theorem count_take_strict (l : List String) (i j : Nat) (hij : i < j)
    (hj : j ≤ l.length) (hi : i < l.length) :
    (l.take i).count (l.get ⟨i, hi⟩) < (l.take j).count (l.get ⟨i, hi⟩) := by
  have hsucc : l.take (i + 1) = l.take i ++ [l.get ⟨i, hi⟩] := by
    rw [List.take_succ]
    congr
    rw [List.getElem?_eq_getElem hi]
    rfl
  have hc1 : (l.take (i + 1)).count (l.get ⟨i, hi⟩)
      = (l.take i).count (l.get ⟨i, hi⟩) + 1 := by
    rw [hsucc, List.count_append]
    simp
  have hsub : List.Sublist (l.take (i + 1)) (l.take j) := by
    have hs := List.take_sublist (i + 1) (l.take j)
    rw [List.take_take, min_eq_left (by omega)] at hs
    exact hs
  have hle := hsub.count_le (l.get ⟨i, hi⟩)
  omega

theorem suffixed_get_ne (l : List String)
    (H : ∀ a ∈ l, ∀ b ∈ l, ∀ k : Nat, k < l.length →
      b ≠ a ++ "_" ++ toString (k + 1))
    (i j : Nat) (hi : i < l.length) (hj : j < l.length) (hij : i < j) :
    suffixedName (l.take i) (l.get ⟨i, hi⟩)
      ≠ suffixedName (l.take j) (l.get ⟨j, hj⟩) := by
  intro heq
  unfold suffixedName at heq
  have hma : l.get ⟨i, hi⟩ ∈ l := List.get_mem l i hi
  have hmb : l.get ⟨j, hj⟩ ∈ l := List.get_mem l j hj
  have hbi : (l.take i).count (l.get ⟨i, hi⟩) ≤ i := by
    have h1 : (l.take i).count (l.get ⟨i, hi⟩) ≤ (l.take i).length :=
      List.count_le_length _ _
    rw [List.length_take] at h1
    omega
  have hbj : (l.take j).count (l.get ⟨j, hj⟩) ≤ j := by
    have h1 : (l.take j).count (l.get ⟨j, hj⟩) ≤ (l.take j).length :=
      List.count_le_length _ _
    rw [List.length_take] at h1
    omega
  by_cases hka : (l.take i).count (l.get ⟨i, hi⟩) = 0 <;>
    by_cases hkb : (l.take j).count (l.get ⟨j, hj⟩) = 0
  · rw [if_pos hka, if_pos hkb] at heq
    have hstrict := count_take_strict l i j hij (le_of_lt hj) hi
    rw [heq] at hstrict
    have hmono : (l.take j).count (l.get ⟨j, hj⟩) ≠ 0 := by
      have hnonneg : 0 ≤ (l.take i).count (l.get ⟨j, hj⟩) := Nat.zero_le _
      omega
    exact hmono hkb
  · rw [if_pos hka, if_neg hkb] at heq
    have happ := H (l.get ⟨j, hj⟩) hmb (l.get ⟨i, hi⟩) hma
      ((l.take j).count (l.get ⟨j, hj⟩) - 1) (by omega)
    apply happ
    rw [show (l.take j).count (l.get ⟨j, hj⟩) - 1 + 1
        = (l.take j).count (l.get ⟨j, hj⟩) from by omega]
    exact heq
  · rw [if_neg hka, if_pos hkb] at heq
    have happ := H (l.get ⟨i, hi⟩) hma (l.get ⟨j, hj⟩) hmb
      ((l.take i).count (l.get ⟨i, hi⟩) - 1) (by omega)
    apply happ
    rw [show (l.take i).count (l.get ⟨i, hi⟩) - 1 + 1
        = (l.take i).count (l.get ⟨i, hi⟩) from by omega]
    exact heq.symm
  · rw [if_neg hka, if_neg hkb] at heq
    obtain ⟨hab, hcnt⟩ := suffix_append_inj _ _ _ _ heq
    have hstrict := count_take_strict l i j hij (le_of_lt hj) hi
    rw [hab] at hstrict hcnt
    omega

theorem uniquifySpec_nodup (l : List String)
    (H : ∀ a ∈ l, ∀ b ∈ l, ∀ k : Nat, k < l.length →
      b ≠ a ++ "_" ++ toString (k + 1)) :
    (uniquifySpec [] l).Nodup := by
  rw [List.nodup_iff_injective_get]
  intro x y heq
  obtain ⟨i, hi⟩ := x
  obtain ⟨j, hj⟩ := y
  have hi' : i < l.length := by rw [← uniquifySpec_length ([] : List String) l]; exact hi
  have hj' : j < l.length := by rw [← uniquifySpec_length ([] : List String) l]; exact hj
  have hgi := uniquifySpec_get [] l i hi'
  have hgj := uniquifySpec_get [] l j hj'
  rw [List.nil_append] at hgi hgj
  rcases Nat.lt_trichotomy i j with h | h | h
  · exfalso
    apply suffixed_get_ne l H i j hi' hj' h
    rw [← hgi, ← hgj]
    exact heq
  · exact Fin.ext h
  · exfalso
    apply suffixed_get_ne l H j i hj' hi' h
    rw [← hgi, ← hgj]
    exact heq.symm

/-- Counterexample to C4 as stated: mapping the raw labels
`a, a, a_1` produces `a, a_1, a_1`, which is not pairwise distinct —
the generated suffix `a_1` collides with the literal third label. -/
theorem c4_counterexample_duplicate_output_names :
    normalize_column_names [.vstr "a", .vstr "a", .vstr "a_1"]
        = ["a", "a_1", "a_1"]
    ∧ ¬(normalize_column_names [.vstr "a", .vstr "a", .vstr "a_1"]).Nodup := by
  decide

/-- C4 as amended: `normalize_column_names` always returns a list of the
same length and order as its input, in which the first occurrence of a
mapped name keeps the bare name and the `k`-th later occurrence is
suffixed `_k` in order of appearance; the output names are pairwise
distinct provided no mapped label collides with a suffixed form of
another mapped label (`base_k`), a condition the all-empty and
all-duplicate inputs satisfy but `[a, a, a_1]` violates. -/
theorem c4_normalize_column_names_suffixing (cols : List CellValue) :
    (normalize_column_names cols).length = cols.length
    ∧ (∀ (i : Nat) (h : i < (mapNames cols).length),
        (normalize_column_names cols).get
            ⟨i, by
              rw [normalize_column_names_length]
              rw [mapNames, mapNamesAux_length] at h
              exact h⟩
          = suffixedName ((mapNames cols).take i) ((mapNames cols).get ⟨i, h⟩))
    ∧ ((∀ a ∈ mapNames cols, ∀ b ∈ mapNames cols, ∀ k : Nat,
          k < (mapNames cols).length →
          b ≠ a ++ "_" ++ toString (k + 1)) →
        (normalize_column_names cols).Nodup) := by
  have he : normalize_column_names cols = uniquifySpec [] (mapNames cols) := by
    unfold normalize_column_names
    exact uniquify_eq_spec _
  refine ⟨normalize_column_names_length cols, ?_, ?_⟩
  · intro i h
    have hg := uniquifySpec_get [] (mapNames cols) i h
    rw [List.nil_append] at hg
    rw [List.get_of_eq he]
    exact hg
  · intro H
    rw [he]
    exact uniquifySpec_nodup (mapNames cols) H

/-- Witness for amended C4: the all-duplicate header `x, x, x` maps to
the pairwise-distinct `x, x_1, x_2`. -/
theorem c4_normalize_column_names_suffixing_witness :
    (normalize_column_names [.vstr "x", .vstr "x", .vstr "x"]).Nodup :=
  (c4_normalize_column_names_suffixing
    [.vstr "x", .vstr "x", .vstr "x"]).2.2 (by decide)

/-! ### Headcount summary (`create_headcount_summary`, `src/HRTool.py:830-913`) -/

/-- A resolved detail-table record as seen by the headcount summary:
department, employment type, gender and retirement-date cells (all
strings after field resolution). -/
structure HRow where
  dept : String
  emptype : String
  gender : String
  retire : String
deriving DecidableEq

/-- `extract_active_employees` (`src/HRTool.py:750-765`): keep the records
whose trimmed retirement-date cell is empty. -/
def extract_active_employees (rows : List HRow) : List HRow :=
  rows.filter (fun r => strTrim r.retire == "")

/-- The keyword table of `is_part_time_or_contract`
(`src/HRTool.py:802-827`). -/
def ptKeywords : List String :=
  ["パート", "ぱーと", "part", "part-time",
   "嘱託", "しょくたく", "嘱托",
   "委託", "いたく",
   "研修", "けんしゅう",
   "シルバー", "しるばー", "silver",
   "契約", "けいやく", "contract",
   "アルバイト", "あるばいと", "バイト", "ばいと",
   "臨時", "りんじ", "temp",
   "派遣", "はけん",
   "非正規", "ひせいき"]

/-- `is_part_time_or_contract`: lower-case the employment-type string and
scan the keyword list for a substring hit. -/
def is_part_time_or_contract (employment_type : String) : Bool :=
  ptKeywords.any (fun k => strContains (strLower employment_type) k)

/-- Alternatives of the パート/嘱職 regex on `src/HRTool.py:879`. -/
def ptBucketPats : List String :=
  ["パート", "嘱託", "嘱托", "ぱーと", "しょくたく", "アルバイト", "臨時"]

/-- Alternatives of the 委託/研修生/シルバー regex on `src/HRTool.py:885`. -/
def entrustBucketPats : List String :=
  ["委託", "研修", "シルバー", "いたく", "けんしゅう", "しるばー"]

/-- One row of the headcount summary sheet: the 部署 label and the five
numeric columns 正社員(男性), 正社員(女性), パート/嘱職,
委託/研修生/シルバー, 合計. -/
structure SummaryRow where
  dept : String
  regularMale : Nat
  regularFemale : Nat
  partTime : Nat
  entrust : Nat
  total : Nat
deriving DecidableEq

/-- The per-department row of `create_headcount_summary`
(`src/HRTool.py:850-893`): regulars are the non-part-time records whose
normalized gender contains 男 resp. 女; the two bucket columns match
their regex alternatives case-insensitively; 合計 is the department's
record count. -/
def deptRow (active : List HRow) (dept : String) : SummaryRow :=
  let dept_data := active.filter (fun r => r.dept == dept)
  { dept := dept
    regularMale := (dept_data.filter (fun r =>
        !is_part_time_or_contract r.emptype
          && strContains (normalize_gender (.vstr r.gender)) "男")).length
    regularFemale := (dept_data.filter (fun r =>
        !is_part_time_or_contract r.emptype
          && strContains (normalize_gender (.vstr r.gender)) "女")).length
    partTime := (dept_data.filter (fun r =>
        ptBucketPats.any (fun p => strContains (strLower r.emptype) p))).length
    entrust := (dept_data.filter (fun r =>
        entrustBucketPats.any (fun p => strContains (strLower r.emptype) p))).length
    total := dept_data.length }

/-- The trailing 【全体合計】 row (`src/HRTool.py:896-902`): every numeric
column is summed over the department rows. -/
def totalRowOf (g : List SummaryRow) : SummaryRow :=
  { dept := "【全体合計】"
    regularMale := (g.map SummaryRow.regularMale).sum
    regularFemale := (g.map SummaryRow.regularFemale).sum
    partTime := (g.map SummaryRow.partTime).sum
    entrust := (g.map SummaryRow.entrust).sum
    total := (g.map SummaryRow.total).sum }

/-- `pd.unique`: distinct values in first-seen order. -/
def uniqueFirst (l : List String) : List String :=
  l.foldl (fun acc x => if x ∈ acc then acc else acc ++ [x]) []

/-- `sorted(active_df[dept_col].unique())` on `src/HRTool.py:852`. -/
def sortedDepts (rows : List HRow) : List String :=
  List.insertionSort (fun a b : String => a ≤ b)
    (uniqueFirst ((extract_active_employees rows).map HRow.dept))

/-- The department group rows, in sorted department order. -/
def groupRows (rows : List HRow) : List SummaryRow :=
  (sortedDepts rows).map (deptRow (extract_active_employees rows))

/-- `create_headcount_summary` (`src/HRTool.py:830-913`): `None` when no
active record remains, otherwise the sorted department rows followed by
the grand-total row. -/
def create_headcount_summary (rows : List HRow) : Option (List SummaryRow) :=
  if (extract_active_employees rows).length = 0 then none
  else some (groupRows rows ++ [totalRowOf (groupRows rows)])

/-- The C9 scenario department: two regular men, one regular woman and
one part-time woman, all active. -/
def c9Pool : List HRow :=
  [⟨"営業部", "正社員", "男", ""⟩,
   ⟨"営業部", "正社員", "男", ""⟩,
   ⟨"営業部", "正社員", "女", ""⟩,
   ⟨"営業部", "パート", "女", ""⟩]

/-- C9: whenever the headcount summary is produced, it ends in a row each
of whose numeric columns is the sum of that column over the preceding
department rows; and the scenario department with two regular-male, one
regular-female and one part-time active record yields the counts
2, 1, 1, 0, 4 and a grand-total row repeating exactly those counts. -/
theorem c9_headcount_grand_total :
    (∀ (rows : List HRow) (out : List SummaryRow),
        create_headcount_summary rows = some out →
        ∃ g t, out = g ++ [t]
          ∧ t.regularMale = (g.map SummaryRow.regularMale).sum
          ∧ t.regularFemale = (g.map SummaryRow.regularFemale).sum
          ∧ t.partTime = (g.map SummaryRow.partTime).sum
          ∧ t.entrust = (g.map SummaryRow.entrust).sum
          ∧ t.total = (g.map SummaryRow.total).sum)
    ∧ create_headcount_summary c9Pool
        = some [⟨"営業部", 2, 1, 1, 0, 4⟩, ⟨"【全体合計】", 2, 1, 1, 0, 4⟩] := by
  constructor
  · intro rows out hout
    unfold create_headcount_summary at hout
    by_cases h0 : (extract_active_employees rows).length = 0
    · rw [if_pos h0] at hout
      exact absurd hout (by simp)
    · rw [if_neg h0] at hout
      injection hout with h
      exact ⟨groupRows rows, totalRowOf (groupRows rows), h.symm,
        rfl, rfl, rfl, rfl, rfl⟩
  · decide

/-- Witness for C9: the general grand-total property applied to the
scenario pool, whose summary is the two concrete rows. -/
theorem c9_headcount_grand_total_witness :
    ∃ g t,
      ([⟨"営業部", 2, 1, 1, 0, 4⟩, ⟨"【全体合計】", 2, 1, 1, 0, 4⟩] : List SummaryRow)
          = g ++ [t]
        ∧ t.regularMale = (g.map SummaryRow.regularMale).sum
        ∧ t.regularFemale = (g.map SummaryRow.regularFemale).sum
        ∧ t.partTime = (g.map SummaryRow.partTime).sum
        ∧ t.entrust = (g.map SummaryRow.entrust).sum
        ∧ t.total = (g.map SummaryRow.total).sum :=
  c9_headcount_grand_total.1 c9Pool _ (by decide)

end HRTool
